import Mathlib

/-!
Verification of the USB-recovery copy pipeline (`src/app.py`).

The development shallowly embeds the three relevant pieces of the program:

* `list_removable_drives` (`app.py` lines 63-99): platform-conditional
  enumeration of removable volumes,
* `populate_tree` (`app.py` lines 167-190): materialization of a directory
  tree into a display tree,
* `copy_tree` / `copy_paths` / `copy_paths_thread` / `copy_all_dst`
  (`app.py` lines 198-248): the collision-handling recursive copy.

Paths are strings; the destination filesystem is an explicit state (an
association list of file paths to contents plus a list of directory paths).
The source side of a copy is an immutable tree of entries, and `os.walk`
is embedded as a pure top-down walk over that tree.  Fallible OS calls are
embedded with `Option`/`Except`: a `none`/`.error` result stands for the
exception the Python code catches at the corresponding place.
-/

set_option autoImplicit false

namespace UsbRec

/-! ## Path helpers (embeddings of `os.path` functions, POSIX flavour) -/

/-- Embedding of `os.path.join a b` for a relative second component. -/
def pjoin (a b : String) : String := a ++ "/" ++ b

/-- Embedding of `os.path.basename`: the part of the path after the last
slash (empty for a path ending in a slash). -/
def basenameStr (p : String) : String :=
  String.mk ((p.data.reverse.takeWhile (fun c => c ≠ '/')).reverse)

/-- Embedding of `p.rstrip(os.sep)`: drop all trailing slashes. -/
def rstripSlashes (p : String) : String :=
  String.mk ((p.data.reverse.dropWhile (fun c => c = '/')).reverse)

/-- Helper for `os.path.splitext`, working on the reversed character list:
split off the characters up to the last dot of the path, provided that dot
occurs after the last slash.  Returns `(reversed extension tail, reversed
base)` or `none` when there is no such dot. -/
def rsplitDot : List Char → Option (List Char × List Char)
  | [] => none
  | c :: rest =>
    if c = '.' then some ([], rest)
    else if c = '/' then none
    else (rsplitDot rest).map (fun pr => (c :: pr.1, pr.2))

/-- Embedding of `os.path.splitext`: split at the last dot of the final
path component, except when that component consists only of leading dots
up to that position (Python treats such a dot as part of a dotfile name,
not as an extension separator). -/
def splitext (p : String) : String × String :=
  match rsplitDot p.data.reverse with
  | none => (p, "")
  | some (extRev, baseRev) =>
    if (baseRev.takeWhile (fun c => c ≠ '/')).any (fun c => c ≠ '.') then
      (String.mk baseRev.reverse, String.mk ('.' :: extRev.reverse))
    else (p, "")

/-- The collision rename of `_copy_tree` (`app.py` lines 244-245):
`base, ext = os.path.splitext(dp); dp = base + _copy + ext` (suffix literal `_copy`). -/
def copyName (dp : String) : String :=
  (splitext dp).1 ++ "_copy" ++ (splitext dp).2

/-- Boolean string-prefix test, used to state "lies under a directory". -/
def startsWithStr (pre p : String) : Bool :=
  pre.data.isPrefixOf p.data

/-! ## Destination filesystem state -/

/-- The mutable filesystem state a copy operates on: file paths with their
contents, and directory paths.  `shutil.copy2` of the source is embedded as
`write` (it replaces the content of an existing path), `os.makedirs` as
`makedirs` below. -/
structure Fs where
  files : List (String × String)
  dirs : List String
deriving DecidableEq, Repr

/-- Content of the file at `p`, if any. -/
def Fs.lookup (fs : Fs) (p : String) : Option String :=
  (fs.files.find? (fun q => q.1 == p)).map (fun q => q.2)

/-- Whether a file exists at `p`. -/
def Fs.isFile (fs : Fs) (p : String) : Bool :=
  (fs.lookup p).isSome

/-- Embedding of `os.path.exists`: true for files and directories. -/
def Fs.existsPath (fs : Fs) (p : String) : Bool :=
  fs.isFile p || fs.dirs.contains p

/-- Embedding of `shutil.copy2 _ p` writing content `c` at path `p`:
replaces the content of an existing file at `p`, creates it otherwise. -/
def Fs.write (fs : Fs) (p c : String) : Fs :=
  ⟨(p, c) :: fs.files.filter (fun q => !(q.1 == p)), fs.dirs⟩

/-- Record directory `p` as existing. -/
def Fs.addDir (fs : Fs) (p : String) : Fs :=
  ⟨fs.files, if fs.dirs.contains p then fs.dirs else p :: fs.dirs⟩

/-- Embedding of `os.makedirs(p, exist_ok=True)`: succeeds (idempotently)
unless a regular file occupies `p`, in which case Python raises
`FileExistsError`.  Ancestors are not tracked separately: every claim below
concerns directories that the walk itself visits parent-first. -/
def makedirs (fs : Fs) (p : String) : Except String Fs :=
  if fs.isFile p then .error "FileExistsError" else .ok (fs.addDir p)

/-! ## Source trees and the embedded `os.walk` -/

/-- A source directory entry: a file with content, or a subdirectory. -/
inductive Entry where
  | file (name content : String)
  | dir (name : String) (children : List Entry)

/-- One `(dirpath, dirnames, filenames)` triple of `os.walk`, with the
directory path kept relative to the walk root (`"."` for the root itself,
as computed by `os.path.relpath`). -/
structure WalkEntry where
  rel : String
  dirNames : List String
  fileItems : List (String × String)
deriving DecidableEq, Repr

/-- Names of the immediate subdirectories of a directory. -/
def dirNamesOf (cs : List Entry) : List String :=
  cs.filterMap (fun e => match e with | .dir n _ => some n | _ => none)

/-- Immediate files of a directory with their contents. -/
def filesOf (cs : List Entry) : List (String × String) :=
  cs.filterMap (fun e => match e with | .file n c => some (n, c) | _ => none)

/-- Relative path of a child directory named `n` of a directory whose
relative path is `rel`, as `os.path.relpath` yields it during the walk. -/
def childRel (rel n : String) : String :=
  if rel = "." then n else pjoin rel n

/-- The `os.walk` triples for all subdirectories (at any depth) of a forest
whose parent directory has relative path `rel`, in top-down order. -/
def walkForest (rel : String) : List Entry → List WalkEntry
  | [] => []
  | .file _ _ :: es => walkForest rel es
  | .dir n sub :: es =>
    (⟨childRel rel n, dirNamesOf sub, filesOf sub⟩ :: walkForest (childRel rel n) sub)
      ++ walkForest rel es

/-- Embedding of `os.walk(src)` for a source directory with children `cs`:
the root triple followed by the triples of every descendant directory. -/
def walkEntries (cs : List Entry) : List WalkEntry :=
  ⟨".", dirNamesOf cs, filesOf cs⟩ :: walkForest "." cs

/-- Number of files at any depth in a forest. -/
def filesCount : List Entry → Nat
  | [] => 0
  | .file _ _ :: es => 1 + filesCount es
  | .dir _ sub :: es => filesCount sub + filesCount es

/-- Number of directories at any depth in a forest. -/
def dirsCount : List Entry → Nat
  | [] => 0
  | .file _ _ :: es => dirsCount es
  | .dir _ sub :: es => 1 + dirsCount sub + dirsCount es

/-- Relative paths of all directories at any depth in a forest whose parent
has relative path `rel`. -/
def dirRels (rel : String) : List Entry → List String
  | [] => []
  | .file _ _ :: es => dirRels rel es
  | .dir n sub :: es => childRel rel n :: (dirRels (childRel rel n) sub ++ dirRels rel es)

/-! ## The copier (`_copy_tree`, `_copy_paths_thread`, `copy_all`) -/

/-- The destination path actually written for a computed destination file
path `dp` (`app.py` lines 243-245): if `dp` already exists the fixed
suffix `_copy` is inserted before the extension, with no further
uniqueness loop. -/
def wpath (fs : Fs) (dp : String) : String :=
  if fs.existsPath dp then copyName dp else dp

/-- One file copy of the inner loop of `_copy_tree`: the existence check, the
single-attempt rename, and the `shutil.copy2` write. -/
def copyOneFile (fs : Fs) (dp c : String) : Fs :=
  fs.write (wpath fs dp) c

/-- The inner `for f in files` loop of `_copy_tree` for one walked
directory with target root `target`. -/
def writeFiles (fs : Fs) (target : String) (items : List (String × String)) : Fs :=
  items.foldl (fun fs fc => copyOneFile fs (pjoin target fc.1) fc.2) fs

/-- Target root for one walk entry: `os.path.join(dst, rel) if rel != '.'
else dst` (`app.py` line 237). -/
def targetOf (dst : String) (e : WalkEntry) : String :=
  if e.rel = "." then dst else pjoin dst e.rel

/-- The main loop of `_copy_tree` over the walk entries.  `os.makedirs` on
the target root is outside the per-file `try`, so its failure aborts the
walk and propagates (second component `some msg`); per-file copy errors are
caught inside the loop and are not modelled as failures. -/
def runEntries (dst : String) : List WalkEntry → Fs → Fs × Option String
  | [], fs => (fs, none)
  | e :: es, fs =>
    match makedirs fs (targetOf dst e) with
    | .error msg => (fs, some msg)
    | .ok fs1 => runEntries dst es (writeFiles fs1 (targetOf dst e) e.fileItems)

/-- Embedding of `_copy_tree(src, dst)` for an existing source directory
with children `cs` (the `not os.path.exists(src)` early return does not
apply: the caller reaches `_copy_tree` only through the `os.path.isdir`
branch). -/
def copy_tree (cs : List Entry) (dst : String) (fs : Fs) : Fs × Option String :=
  runEntries dst (walkEntries cs) fs

/-- What the OS reports about one source path in `_copy_paths_thread`:
an existing directory with its children, an existing plain file with its
content, or a missing path (for which `shutil.copy2` raises and the
exception is caught by the per-file `try`). -/
inductive Src where
  | dirE (children : List Entry)
  | fileE (content : String)
  | missing

/-- The target subdirectory name a directory source is copied under:
`os.path.basename(p.rstrip(os.sep))`, falling back to `root` (`app.py` line 217). -/
def dirTargetName (p : String) : String :=
  if basenameStr (rstripSlashes p) = "" then "root" else basenameStr (rstripSlashes p)

/-- The `for p in paths` loop of `_copy_paths_thread` (`app.py` lines
214-225).  Directory sources go through `_copy_tree` under a target
subdirectory named after the source base name (`root` when empty); other
sources get `os.makedirs(dst, exist_ok=True)` followed by a direct
`shutil.copy2(p, dst)` whose failure (missing source) is caught and
logged, after which the batch continues. -/
def copy_paths (world : String → Src) (dst : String) : List String → Fs → Fs × Option String
  | [], fs => (fs, none)
  | p :: ps, fs =>
    match world p with
    | .dirE cs =>
      match copy_tree cs (pjoin dst (dirTargetName p)) fs with
      | (fs1, none) => copy_paths world dst ps fs1
      | (fs1, some msg) => (fs1, some msg)
    | .fileE c =>
      match makedirs fs dst with
      | .error msg => (fs, some msg)
      | .ok fs1 => copy_paths world dst ps (fs1.write (pjoin dst (basenameStr p)) c)
    | .missing =>
      match makedirs fs dst with
      | .error msg => (fs, some msg)
      | .ok fs1 => copy_paths world dst ps fs1

/-- A modal notification shown to the user at the end of a batch copy. -/
inductive Notice where
  | info (title msg : String)
  | err (title msg : String)
deriving DecidableEq, Repr

/-- The whole `_copy_paths_thread` body: the batch loop wrapped in the
top-level `try`/`except`, producing the final filesystem state, the final
status text and the single closing notification (`app.py` lines 211-230). -/
def copy_paths_thread (world : String → Src) (paths : List String) (dst : String) (fs : Fs) :
    Fs × String × Notice :=
  match copy_paths world dst paths fs with
  | (fs1, none) => (fs1, "Copie terminee", .info "Termine" "Copie terminee.")
  | (fs1, some e) =>
    (fs1, "Erreur lors de la copie", .err "Erreur" ("Une erreur est survenue pendant la copie: " ++ e))

/-- The destination root `copy_all` passes to `_copy_paths_thread`
(`app.py` lines 206-208): join of the destination with the base name of the
stripped source path suffixed by `_copy`, the base name falling back to
`usb_copy` when empty. -/
def copy_all_dst (destination src : String) : String :=
  let b := basenameStr (rstripSlashes src)
  let basename := if b = "" then "usb_copy" else b
  pjoin destination (basename ++ "_copy")

/-! ## Tree materialization (`_populate_tree`) -/

/-- The display tree `_populate_tree` builds: one root node label and the
(flat) list of labels inserted as children of the root node. -/
structure TreeView where
  label : String
  children : List String
deriving DecidableEq, Repr

/-- Embedding of `_populate_tree(root_path)` (`app.py` lines 167-190) for
a root directory with children `cs`: one root node labeled
`os.path.basename(root_path) or root_path`, and for every walk triple all
subdirectory names followed by all file names inserted as children of the
root node (`parent_node` is `root_node` for every `rel`). -/
def populate_tree (root_path : String) (cs : List Entry) : TreeView :=
  { label := if basenameStr root_path = "" then root_path else basenameStr root_path
    children := (walkEntries cs).flatMap (fun e => e.dirNames ++ e.fileItems.map (fun fc => fc.1)) }

/-! ## Volume enumeration (`list_removable_drives`) -/

/-- Outcome of one `os.listdir` call.  The code (`app.py` line 97)
catches only `PermissionError`; any other exception a listing can raise
(for example `NotADirectoryError` or `FileNotFoundError`) is uncaught and
propagates out of `list_removable_drives`, so the two failure modes must
stay distinguishable in the model. -/
inductive ListdirResult where
  | ok (entries : List String)
  | permissionError
  | raised (msg : String)

/-- Read-only view of the OS state the POSIX branch of
`list_removable_drives` queries: `os.path.exists` and `os.path.ismount`
(which do not raise), and `os.listdir` with its three outcomes: a
listing, the caught `PermissionError`, or an uncaught exception. -/
structure PosixFsView where
  pathExists : String → Bool
  listdir : String → ListdirResult
  ismount : String → Bool

/-- Platform plus the OS state the enumeration reads: the Windows branch
sees the logical-drive bitmask and the per-letter drive type query (`none`
standing for a raised exception, swallowed by a `try` either way), the
POSIX branch sees the view above plus the result of `Path.home()`
(`app.py` line 87), which is evaluated outside any `try` and can itself
raise (`.error`), aborting the enumeration. -/
inductive Platform where
  | win (bitmask : Nat) (driveType : Nat → Option Nat)
  | posix (st : PosixFsView) (home : Except String String)

/-- The drive-letter string: the character with code 65 + i, then a colon
and a backslash. -/
def driveLetter (i : Nat) : String :=
  String.mk [Char.ofNat (65 + i)] ++ ":\\"

/-- The fixed mount base list of the POSIX branch (`app.py` line 87). -/
def posixCandidates (home : String) : List String :=
  ["/media", "/mnt", "/run/media", pjoin home "Volumes", "/Volumes"]

/-- One drive letter of the Windows branch: skip the letter when its bit
is absent from the bitmask, when `GetDriveTypeW` raises (`none`), or when
the reported type is not `DRIVE_REMOVABLE` (2). -/
def winStep (bitmask : Nat) (driveType : Nat → Option Nat) (acc : List String) (i : Nat) :
    List String :=
  if (bitmask &&& (1 <<< i)) != 0 then
    match driveType i with
    | some t => if t == 2 then acc ++ [driveLetter i] else acc
    | none => acc
  else acc

/-- One directory entry of a POSIX base directory: carrying
`(drives, seen)`, append the child only when it is a mount point and its
path has not been seen. -/
def posixEntryStep (st : PosixFsView) (base : String) (acc : List String × List String)
    (entry : String) : List String × List String :=
  let path := pjoin base entry
  if st.ismount path && !(acc.2.contains path) then (acc.1 ++ [path], path :: acc.2)
  else acc

/-- Inner loop of the POSIX branch over one base directory listing. -/
def posixScanBase (st : PosixFsView) (base : String) (acc : List String × List String)
    (entries : List String) : List String × List String :=
  entries.foldl (posixEntryStep st base) acc

/-- The `for base in candidates` loop of the POSIX branch: a base is
skipped when it does not exist or when listing it raises the caught
`PermissionError`; any other listing exception aborts the loop and
propagates (`.error`). -/
def posixScanBases (st : PosixFsView) :
    List String → List String × List String → Except String (List String × List String)
  | [], acc => .ok acc
  | base :: bases, acc =>
    if st.pathExists base then
      match st.listdir base with
      | .ok entries => posixScanBases st bases (posixScanBase st base acc entries)
      | .permissionError => posixScanBases st bases acc
      | .raised msg => .error msg
    else posixScanBases st bases acc

/-- Embedding of `list_removable_drives` (`app.py` lines 63-99).  The
Windows branch never raises (its whole body sits inside a `try`); the
POSIX branch propagates a `Path.home()` failure (raised while building
the candidate list, outside any `try`) and any listing exception other
than the caught `PermissionError`. -/
def list_removable_drives : Platform → Except String (List String)
  | .win bitmask driveType =>
    .ok ((List.range 26).foldl (winStep bitmask driveType) [])
  | .posix st home =>
    match home with
    | .error msg => .error msg
    | .ok h =>
      match posixScanBases st (posixCandidates h) ([], []) with
      | .ok acc => .ok acc.1
      | .error msg => .error msg

/-! ## Derived write/target lists used in the statements -/

/-- The computed (pre-collision-check) destination file paths and contents
of one walk entry. -/
def entryWrites (dst : String) (e : WalkEntry) : List (String × String) :=
  e.fileItems.map (fun fc => (pjoin (targetOf dst e) fc.1, fc.2))

/-- All computed destination file paths and contents of a walk. -/
def fileWrites (dst : String) (es : List WalkEntry) : List (String × String) :=
  es.flatMap (entryWrites dst)

/-- All computed destination file paths of a walk. -/
def fpaths (dst : String) (es : List WalkEntry) : List String :=
  (fileWrites dst es).map (fun dpc => dpc.1)

/-- All target roots `os.makedirs` is called on during a walk. -/
def dirTargets (dst : String) (es : List WalkEntry) : List String :=
  es.map (targetOf dst)

/-! ## Basic lemmas about the path helpers -/

theorem str_data_append (s t : String) : (s ++ t).data = s.data ++ t.data := rfl

theorem startsWithStr_iff (pre p : String) :
    startsWithStr pre p = true ↔ ∃ rest, p.data = pre.data ++ rest := by
  constructor
  · intro h
    rcases List.isPrefixOf_iff_prefix.mp h with ⟨rest, hr⟩
    exact ⟨rest, hr.symm⟩
  · rintro ⟨rest, hr⟩
    exact List.isPrefixOf_iff_prefix.mpr ⟨rest, hr.symm⟩

theorem startsWithStr_append (pre p t : String) (h : startsWithStr pre p = true) :
    startsWithStr pre (p ++ t) = true := by
  rcases (startsWithStr_iff pre p).mp h with ⟨rest, hr⟩
  exact (startsWithStr_iff pre (p ++ t)).mpr ⟨rest ++ t.data, by
    rw [str_data_append, hr, List.append_assoc]⟩

theorem startsWithStr_pjoin (d x : String) : startsWithStr (d ++ "/") (pjoin d x) = true := by
  exact (startsWithStr_iff _ _).mpr ⟨x.data, by simp [pjoin, str_data_append]⟩

theorem startsWithStr_trans_pjoin (d p x : String) (h : startsWithStr (d ++ "/") p = true) :
    startsWithStr (d ++ "/") (pjoin p x) = true := by
  have h1 : startsWithStr (d ++ "/") (p ++ "/") = true := startsWithStr_append _ _ _ h
  have h2 := startsWithStr_append (d ++ "/") (p ++ "/") x h1
  simpa [pjoin, String.append_assoc] using h2

theorem rsplitDot_eq_some (l : List Char) :
    ∀ e b, rsplitDot l = some (e, b) → l = e ++ '.' :: b := by
  induction l with
  | nil => intro e b h; simp [rsplitDot] at h
  | cons c rest ih =>
    intro e b h
    by_cases hc : c = '.'
    · rw [show rsplitDot (c :: rest) = some ([], rest) by simp [rsplitDot, hc]] at h
      cases h
      simp [hc]
    · by_cases hs : c = '/'
      · rw [show rsplitDot (c :: rest) = none by simp [rsplitDot, hc, hs]] at h
        cases h
      · rw [show rsplitDot (c :: rest) =
            (rsplitDot rest).map (fun pr => (c :: pr.1, pr.2)) by simp [rsplitDot, hc, hs]] at h
        rcases hval : rsplitDot rest with _ | ⟨e', b'⟩ <;> rw [hval] at h
        · cases h
        · have h2 : c :: e' = e ∧ b' = b := by simpa using h
          rw [← h2.1, ← h2.2]
          simp [ih e' b' hval]

theorem rsplitDot_append_slash (a l : List Char) :
    rsplitDot (a ++ '/' :: l) = none ∨
      ∃ e a2, rsplitDot (a ++ '/' :: l) = some (e, a2 ++ '/' :: l) := by
  induction a with
  | nil =>
    left
    simp [rsplitDot]
  | cons c a ih =>
    by_cases hc : c = '.'
    · right
      exact ⟨[], a, by simp [rsplitDot, hc]⟩
    · by_cases hs : c = '/'
      · left
        simp [rsplitDot, hc, hs]
      · rcases ih with hnone | ⟨e, a2, hsome⟩
        · left
          simp [rsplitDot, hc, hs, hnone]
        · right
          exact ⟨c :: e, a2, by simp [rsplitDot, hc, hs, hsome]⟩

theorem splitext_data_length (p : String) :
    (splitext p).1.data.length + (splitext p).2.data.length = p.data.length := by
  unfold splitext
  split
  · simp
  · next e b heq =>
    have hdec := rsplitDot_eq_some _ e b heq
    have hlen : p.data.length = e.length + 1 + b.length := by
      have h1 : p.data.reverse.length = (e ++ '.' :: b).length := by rw [hdec]
      rw [List.length_reverse, List.length_append, List.length_cons] at h1
      omega
    split
    · show b.reverse.length + ('.' :: e.reverse).length = p.data.length
      rw [List.length_reverse, List.length_cons, List.length_reverse, hlen]
      omega
    · simp

theorem copyName_data_length (dp : String) :
    (copyName dp).data.length = dp.data.length + 5 := by
  have h := splitext_data_length dp
  have h2 : ("_copy" : String).data = ['_', 'c', 'o', 'p', 'y'] := rfl
  unfold copyName
  rw [str_data_append, str_data_append, h2]
  rw [List.length_append, List.length_append]
  have h5 : (['_', 'c', 'o', 'p', 'y'] : List Char).length = 5 := rfl
  rw [h5]
  omega

theorem copyName_ne (dp : String) : copyName dp ≠ dp := by
  intro h
  have := copyName_data_length dp
  rw [h] at this
  omega

theorem splitext_fst_startsWith (q dp : String) (h : startsWithStr (q ++ "/") dp = true) :
    startsWithStr (q ++ "/") (splitext dp).1 = true := by
  rcases (startsWithStr_iff _ _).mp h with ⟨rest, hr⟩
  have hrev : dp.data.reverse = rest.reverse ++ '/' :: q.data.reverse := by
    rw [hr, str_data_append]
    show ((q.data ++ ['/']) ++ rest).reverse = rest.reverse ++ '/' :: q.data.reverse
    simp
  unfold splitext
  split
  · exact h
  · next e b heq =>
    have hb : ∃ a2, b = a2 ++ '/' :: q.data.reverse := by
      rcases rsplitDot_append_slash rest.reverse q.data.reverse with hnone | ⟨e2, a2, hsome⟩
      · rw [← hrev, heq] at hnone
        simp at hnone
      · rw [← hrev, heq] at hsome
        simp at hsome
        exact ⟨a2, hsome.2⟩
    rcases hb with ⟨a2, rfl⟩
    split
    · show startsWithStr (q ++ "/") (String.mk (a2 ++ '/' :: q.data.reverse).reverse) = true
      apply (startsWithStr_iff _ _).mpr
      refine ⟨a2.reverse, ?_⟩
      show (a2 ++ '/' :: q.data.reverse).reverse = (q ++ "/").data ++ a2.reverse
      rw [str_data_append]
      simp
    · exact h

theorem startsWithStr_copyName (q dp : String) (h : startsWithStr (q ++ "/") dp = true) :
    startsWithStr (q ++ "/") (copyName dp) = true := by
  unfold copyName
  exact startsWithStr_append _ _ _ (startsWithStr_append _ _ _
    (splitext_fst_startsWith q dp h))

/-! ## Basic lemmas about the filesystem state -/

theorem find?_filter_ne (l : List (String × String)) (p q : String) (h : q ≠ p) :
    (l.filter (fun e => !(e.1 == p))).find? (fun e => e.1 == q) =
      l.find? (fun e => e.1 == q) := by
  induction l with
  | nil => rfl
  | cons a l ih =>
    by_cases hap : a.1 = p
    · have h1 : (!(a.1 == p)) = false := by simp [hap]
      have h2 : (a.1 == q) = false := by
        simp only [beq_eq_false_iff_ne]
        rw [hap]
        exact Ne.symm h
      rw [List.filter_cons, h1]
      simp only [Bool.false_eq_true, if_false]
      rw [List.find?_cons, h2, ih]
    · have h1 : (!(a.1 == p)) = true := by simp [hap]
      rw [List.filter_cons, h1]
      simp only [if_true]
      by_cases haq : a.1 = q
      · have h2 : (a.1 == q) = true := by simp [haq]
        rw [List.find?_cons, List.find?_cons, h2]
      · have h2 : (a.1 == q) = false := by simp [haq]
        rw [List.find?_cons, List.find?_cons, h2, ih]

theorem lookup_write_self (fs : Fs) (p c : String) : (fs.write p c).lookup p = some c := by
  simp [Fs.write, Fs.lookup, List.find?_cons]

theorem lookup_write_ne (fs : Fs) (p c q : String) (h : q ≠ p) :
    (fs.write p c).lookup q = fs.lookup q := by
  simp [Fs.write, Fs.lookup, List.find?_cons, Ne.symm h, find?_filter_ne _ _ _ h]

theorem isFile_write_iff (fs : Fs) (p c q : String) :
    (fs.write p c).isFile q = true ↔ (q = p ∨ fs.isFile q = true) := by
  by_cases hqp : q = p
  · subst hqp
    simp [Fs.isFile, lookup_write_self]
  · simp [Fs.isFile, lookup_write_ne fs p c q hqp, hqp]

theorem dirs_write (fs : Fs) (p c : String) : (fs.write p c).dirs = fs.dirs := rfl

theorem lookup_addDir (fs : Fs) (d q : String) : (fs.addDir d).lookup q = fs.lookup q := rfl

theorem isFile_addDir (fs : Fs) (d q : String) : (fs.addDir d).isFile q = fs.isFile q := rfl

theorem mem_dirs_addDir (fs : Fs) (d q : String) :
    q ∈ (fs.addDir d).dirs ↔ (q = d ∨ q ∈ fs.dirs) := by
  show (q ∈ if fs.dirs.contains d = true then fs.dirs else d :: fs.dirs) ↔ (q = d ∨ q ∈ fs.dirs)
  by_cases hc : fs.dirs.contains d = true
  · have hd : d ∈ fs.dirs := by simpa using hc
    rw [if_pos hc]
    constructor
    · exact Or.inr
    · rintro (rfl | hq)
      · exact hd
      · exact hq
  · rw [if_neg hc]
    exact List.mem_cons

theorem existsPath_iff (fs : Fs) (q : String) :
    fs.existsPath q = true ↔ (fs.isFile q = true ∨ q ∈ fs.dirs) := by
  simp [Fs.existsPath]

theorem existsPath_addDir (fs : Fs) (d q : String) (h : q ≠ d) :
    (fs.addDir d).existsPath q = fs.existsPath q := by
  rcases hval : fs.existsPath q with _ | _
  · rw [Bool.eq_false_iff]
    intro hcon
    rcases (existsPath_iff _ _).mp hcon with hf | hd
    · rw [isFile_addDir] at hf
      rw [(existsPath_iff fs q).mpr (Or.inl hf)] at hval
      simp at hval
    · rcases (mem_dirs_addDir fs d q).mp hd with rfl | hq
      · exact h rfl
      · rw [(existsPath_iff fs q).mpr (Or.inr hq)] at hval
        simp at hval
  · apply (existsPath_iff _ _).mpr
    rcases (existsPath_iff fs q).mp hval with hf | hd
    · exact Or.inl (by rw [isFile_addDir]; exact hf)
    · exact Or.inr ((mem_dirs_addDir fs d q).mpr (Or.inr hd))

theorem makedirs_ok (fs : Fs) (p : String) (h : fs.isFile p = false) :
    makedirs fs p = .ok (fs.addDir p) := by
  simp [makedirs, h]

theorem wpath_cases (fs : Fs) (dp : String) :
    wpath fs dp = dp ∨ wpath fs dp = copyName dp := by
  unfold wpath
  by_cases h : fs.existsPath dp = true
  · simp [h]
  · simp [h]

theorem wpath_of_exists (fs : Fs) (dp : String) (h : fs.existsPath dp = true) :
    wpath fs dp = copyName dp := by
  simp [wpath, h]

theorem wpath_of_fresh (fs : Fs) (dp : String) (h : fs.existsPath dp = false) :
    wpath fs dp = dp := by
  simp [wpath, h]

theorem isFile_write_ne (fs : Fs) (p c q : String) (h : q ≠ p) :
    (fs.write p c).isFile q = fs.isFile q := by
  simp [Fs.isFile, lookup_write_ne fs p c q h]

theorem existsPath_write_ne (fs : Fs) (p c q : String) (h : q ≠ p) :
    (fs.write p c).existsPath q = fs.existsPath q := by
  simp [Fs.existsPath, isFile_write_ne fs p c q h, dirs_write]

theorem isFile_write_mono (fs : Fs) (p c q : String) (h : fs.isFile q = true) :
    (fs.write p c).isFile q = true :=
  (isFile_write_iff fs p c q).mpr (Or.inr h)

theorem existsPath_write_mono (fs : Fs) (p c q : String) (h : fs.existsPath q = true) :
    (fs.write p c).existsPath q = true := by
  rcases (existsPath_iff fs q).mp h with hf | hd
  · exact (existsPath_iff _ q).mpr (Or.inl (isFile_write_mono fs p c q hf))
  · exact (existsPath_iff _ q).mpr (Or.inr (by rw [dirs_write]; exact hd))

/-! ## The inner file loop, over already-joined (path, content) pairs -/

/-- Reformulation of `writeFiles` over the list of already-joined
destination paths; `writeFiles_eq` below relates the two. -/
def writePairs (fs : Fs) (l : List (String × String)) : Fs :=
  l.foldl (fun fs dpc => copyOneFile fs dpc.1 dpc.2) fs

theorem copyOneFile_eq (fs : Fs) (dp c : String) :
    copyOneFile fs dp c = fs.write (wpath fs dp) c := rfl

theorem writePairs_nil (fs : Fs) : writePairs fs [] = fs := rfl

theorem writePairs_cons (fs : Fs) (d : String × String) (l : List (String × String)) :
    writePairs fs (d :: l) = writePairs (copyOneFile fs d.1 d.2) l := rfl

theorem writeFiles_eq (fs : Fs) (target : String) (items : List (String × String)) :
    writeFiles fs target items =
      writePairs fs (items.map (fun fc => (pjoin target fc.1, fc.2))) := by
  simp [writeFiles, writePairs, List.foldl_map]

theorem writeFiles_entry (fs : Fs) (dst : String) (e : WalkEntry) :
    writeFiles fs (targetOf dst e) e.fileItems = writePairs fs (entryWrites dst e) :=
  writeFiles_eq fs (targetOf dst e) e.fileItems

/-- Exact behaviour of the inner file loop under the non-aliasing
hypotheses: every pair is written at its collision-adjusted path
(`wpath`), paths not written are untouched, and no directory changes. -/
theorem writePairs_main (l : List (String × String)) :
    ∀ (fs : Fs),
    (l.map (fun x => x.1)).Nodup →
    (∀ a ∈ l.map (fun x => x.1), ∀ b ∈ l.map (fun x => x.1), copyName a ≠ b) →
    (∀ a ∈ l.map (fun x => x.1), ∀ b ∈ l.map (fun x => x.1),
      copyName a = copyName b → a = b) →
    (∀ dpc ∈ l, (writePairs fs l).lookup (wpath fs dpc.1) = some dpc.2)
    ∧ (∀ q, (writePairs fs l).isFile q = true ↔
        (fs.isFile q = true ∨ ∃ dpc ∈ l, q = wpath fs dpc.1))
    ∧ (∀ q, (∀ dpc ∈ l, q ≠ wpath fs dpc.1) → (writePairs fs l).lookup q = fs.lookup q)
    ∧ (writePairs fs l).dirs = fs.dirs := by
  induction l with
  | nil =>
    intro fs _ _ _
    refine ⟨?_, ?_, ?_, rfl⟩
    · intro dpc h
      cases h
    · intro q
      simp [writePairs_nil]
    · intro q _
      rfl
  | cons d l ih =>
    intro fs hnd hal hinj
    have hP_head : d.1 ∈ (d :: l).map (fun x => x.1) := by simp
    have hP_tail : ∀ a ∈ l, a.1 ∈ (d :: l).map (fun x => x.1) := by
      intro a ha
      exact List.mem_cons_of_mem _ (List.mem_map_of_mem _ ha)
    have hd_not_tail : d.1 ∉ l.map (fun x => x.1) := (List.nodup_cons.mp hnd).1
    have hnd2 : (l.map (fun x => x.1)).Nodup := (List.nodup_cons.mp hnd).2
    have hal2 : ∀ a ∈ l.map (fun x => x.1), ∀ b ∈ l.map (fun x => x.1), copyName a ≠ b := by
      intro a ha b hb
      exact hal a (List.mem_cons_of_mem _ ha) b (List.mem_cons_of_mem _ hb)
    have hinj2 : ∀ a ∈ l.map (fun x => x.1), ∀ b ∈ l.map (fun x => x.1),
        copyName a = copyName b → a = b := by
      intro a ha b hb
      exact hinj a (List.mem_cons_of_mem _ ha) b (List.mem_cons_of_mem _ hb)
    have hane : ∀ a ∈ l, d.1 ≠ a.1 := by
      intro a ha hcon
      exact hd_not_tail (hcon ▸ List.mem_map_of_mem _ ha)
    have K0 : ∀ a ∈ l, a.1 ≠ wpath fs d.1 := by
      intro a ha
      rcases wpath_cases fs d.1 with h1 | h1 <;> rw [h1]
      · exact fun hcon => hane a ha hcon.symm
      · exact fun hcon => hal d.1 hP_head a.1 (hP_tail a ha) hcon.symm
    have Kdist : ∀ a ∈ l, wpath fs d.1 ≠ wpath fs a.1 := by
      intro a ha
      rcases wpath_cases fs d.1 with h1 | h1 <;> rcases wpath_cases fs a.1 with h2 | h2 <;>
        rw [h1, h2]
      · exact hane a ha
      · exact fun hcon => hal a.1 (hP_tail a ha) d.1 hP_head hcon.symm
      · exact hal d.1 hP_head a.1 (hP_tail a ha)
      · intro hcon
        exact hane a ha (hinj d.1 hP_head a.1 (hP_tail a ha) hcon)
    have K1 : ∀ a ∈ l, (copyOneFile fs d.1 d.2).existsPath a.1 = fs.existsPath a.1 := by
      intro a ha
      exact existsPath_write_ne fs (wpath fs d.1) d.2 a.1 (K0 a ha)
    have K2 : ∀ a ∈ l, wpath (copyOneFile fs d.1 d.2) a.1 = wpath fs a.1 := by
      intro a ha
      unfold wpath
      rw [K1 a ha]
    obtain ⟨ih1, ih2, ih3, ih4⟩ := ih (copyOneFile fs d.1 d.2) hnd2 hal2 hinj2
    refine ⟨?_, ?_, ?_, ?_⟩
    · intro dpc hmem
      rw [writePairs_cons]
      rcases List.mem_cons.mp hmem with rfl | htail
      · have hfr : ∀ a ∈ l, wpath fs dpc.1 ≠ wpath (copyOneFile fs dpc.1 dpc.2) a.1 := by
          intro a ha
          rw [K2 a ha]
          exact Kdist a ha
        rw [ih3 (wpath fs dpc.1) hfr]
        exact lookup_write_self fs (wpath fs dpc.1) dpc.2
      · rw [← K2 dpc htail]
        exact ih1 dpc htail
    · intro q
      have hex : (∃ dpc ∈ l, q = wpath (copyOneFile fs d.1 d.2) dpc.1) ↔
          (∃ dpc ∈ l, q = wpath fs dpc.1) := by
        constructor
        · rintro ⟨dpc, hm, hq⟩
          exact ⟨dpc, hm, hq.trans (K2 dpc hm)⟩
        · rintro ⟨dpc, hm, hq⟩
          exact ⟨dpc, hm, hq.trans (K2 dpc hm).symm⟩
      rw [writePairs_cons, ih2 q, hex, copyOneFile_eq, isFile_write_iff]
      constructor
      · rintro ((rfl | hf) | ⟨dpc, hm, hq⟩)
        · exact Or.inr ⟨d, List.mem_cons_self d l, rfl⟩
        · exact Or.inl hf
        · exact Or.inr ⟨dpc, List.mem_cons_of_mem _ hm, hq⟩
      · rintro (hf | ⟨dpc, hm, hq⟩)
        · exact Or.inl (Or.inr hf)
        · rcases List.mem_cons.mp hm with rfl | htail
          · exact Or.inl (Or.inl hq)
          · exact Or.inr ⟨dpc, htail, hq⟩
    · intro q hq
      rw [writePairs_cons]
      have h1 : ∀ a ∈ l, q ≠ wpath (copyOneFile fs d.1 d.2) a.1 := by
        intro a ha
        rw [K2 a ha]
        exact hq a (List.mem_cons_of_mem _ ha)
      rw [ih3 q h1]
      exact lookup_write_ne fs (wpath fs d.1) d.2 q (hq d (List.mem_cons_self d l))
    · rw [writePairs_cons, ih4]
      rfl

/-! ## The walk loop of the copier -/

theorem fileWrites_nil (dst : String) : fileWrites dst [] = [] := rfl

theorem fileWrites_cons (dst : String) (e : WalkEntry) (es : List WalkEntry) :
    fileWrites dst (e :: es) = entryWrites dst e ++ fileWrites dst es := by
  simp [fileWrites]

theorem fpaths_cons (dst : String) (e : WalkEntry) (es : List WalkEntry) :
    fpaths dst (e :: es) =
      (entryWrites dst e).map (fun x => x.1) ++ fpaths dst es := by
  simp [fpaths, fileWrites_cons]

theorem dirTargets_cons (dst : String) (e : WalkEntry) (es : List WalkEntry) :
    dirTargets dst (e :: es) = targetOf dst e :: dirTargets dst es := rfl

theorem bool_eq_of_iff {a b : Bool} (h : a = true ↔ b = true) : a = b := by
  cases a <;> cases b <;> simp_all

theorem bool_eq_false_of_not {a : Bool} (h : ¬a = true) : a = false := by
  cases a <;> simp_all

theorem wpath_addDir_ne (fs : Fs) (d q : String) (h : q ≠ d) :
    wpath (fs.addDir d) q = wpath fs q := by
  unfold wpath
  rw [existsPath_addDir fs d q h]

theorem wpath_ne_of_ne (fs : Fs) (S : List String)
    (hal : ∀ a ∈ S, ∀ b ∈ S, copyName a ≠ b)
    (hinj : ∀ a ∈ S, ∀ b ∈ S, copyName a = copyName b → a = b)
    (a b : String) (ha : a ∈ S) (hb : b ∈ S) (hne : a ≠ b) :
    wpath fs a ≠ wpath fs b := by
  rcases wpath_cases fs a with h1 | h1 <;> rcases wpath_cases fs b with h2 | h2 <;> rw [h1, h2]
  · exact hne
  · exact fun hcon => hal b hb a ha hcon.symm
  · exact hal a ha b hb
  · exact fun hcon => hne (hinj a ha b hb hcon)

/-- Exact behaviour of the walk loop of `_copy_tree` under the non-aliasing
hypotheses: it succeeds, writes every walked file at its
collision-adjusted path, creates exactly the walked target roots, and
leaves every other path untouched. -/
theorem runEntries_main (dst : String) (es : List WalkEntry) :
    ∀ (fs : Fs),
    (fpaths dst es).Nodup →
    (∀ a ∈ fpaths dst es, ∀ b ∈ fpaths dst es, copyName a ≠ b) →
    (∀ a ∈ fpaths dst es, ∀ b ∈ fpaths dst es, copyName a = copyName b → a = b) →
    (∀ a ∈ fpaths dst es, a ∉ dirTargets dst es ∧ copyName a ∉ dirTargets dst es) →
    (∀ t ∈ dirTargets dst es, fs.isFile t = false) →
    (runEntries dst es fs).2 = none
    ∧ (∀ dpc ∈ fileWrites dst es,
        (runEntries dst es fs).1.lookup (wpath fs dpc.1) = some dpc.2)
    ∧ (∀ q, (runEntries dst es fs).1.isFile q = true ↔
        (fs.isFile q = true ∨ ∃ dpc ∈ fileWrites dst es, q = wpath fs dpc.1))
    ∧ (∀ q, q ∈ (runEntries dst es fs).1.dirs ↔ (q ∈ fs.dirs ∨ q ∈ dirTargets dst es))
    ∧ (∀ q, (∀ dpc ∈ fileWrites dst es, q ≠ wpath fs dpc.1) →
        (runEntries dst es fs).1.lookup q = fs.lookup q) := by
  induction es with
  | nil =>
    intro fs _ _ _ _ _
    refine ⟨rfl, ?_, ?_, ?_, ?_⟩
    · intro dpc h
      cases h
    · intro q
      simp [runEntries, fileWrites_nil]
    · intro q
      simp [runEntries, dirTargets]
    · intro q _
      rfl
  | cons e es ih =>
    intro fs hnd hal hinj hsep hdt
    rw [fpaths_cons] at hnd hal hinj hsep
    rw [fileWrites_cons]
    rw [dirTargets_cons] at hsep hdt
    obtain ⟨nd_l, nd_es, disj⟩ := List.nodup_append.mp hnd
    have hm_l : ∀ x ∈ (entryWrites dst e).map (fun y => y.1),
        x ∈ (entryWrites dst e).map (fun y => y.1) ++ fpaths dst es :=
      fun x hx => List.mem_append_left _ hx
    have hm_es : ∀ x ∈ fpaths dst es,
        x ∈ (entryWrites dst e).map (fun y => y.1) ++ fpaths dst es :=
      fun x hx => List.mem_append_right _ hx
    have h_t_head : targetOf dst e ∈ targetOf dst e :: dirTargets dst es :=
      List.mem_cons_self _ _
    have h_mkfile : fs.isFile (targetOf dst e) = false := hdt _ h_t_head
    have h_mk : makedirs fs (targetOf dst e) = .ok (fs.addDir (targetOf dst e)) :=
      makedirs_ok fs _ h_mkfile
    -- every computed path differs from the target root just created
    have K_A1 : ∀ a ∈ (entryWrites dst e).map (fun y => y.1) ++ fpaths dst es,
        a ≠ targetOf dst e := by
      intro a ha hcon
      exact (hsep a ha).1 (hcon ▸ h_t_head)
    have K_wA : ∀ a ∈ (entryWrites dst e).map (fun y => y.1) ++ fpaths dst es,
        wpath (fs.addDir (targetOf dst e)) a = wpath fs a :=
      fun a ha => wpath_addDir_ne fs _ a (K_A1 a ha)
    have hal_l : ∀ a ∈ (entryWrites dst e).map (fun y => y.1),
        ∀ b ∈ (entryWrites dst e).map (fun y => y.1), copyName a ≠ b :=
      fun a ha b hb => hal a (hm_l a ha) b (hm_l b hb)
    have hinj_l : ∀ a ∈ (entryWrites dst e).map (fun y => y.1),
        ∀ b ∈ (entryWrites dst e).map (fun y => y.1), copyName a = copyName b → a = b :=
      fun a ha b hb => hinj a (hm_l a ha) b (hm_l b hb)
    obtain ⟨w1, w2, w3, w4⟩ :=
      writePairs_main (entryWrites dst e) (fs.addDir (targetOf dst e)) nd_l hal_l hinj_l
    -- the run after the head entry
    have hrun : runEntries dst (e :: es) fs =
        runEntries dst es (writePairs (fs.addDir (targetOf dst e)) (entryWrites dst e)) := by
      rw [runEntries, h_mk]
      show runEntries dst es
          (writeFiles (fs.addDir (targetOf dst e)) (targetOf dst e) e.fileItems) = _
      rw [writeFiles_entry]
    -- the state after processing the head entry does not disturb the rest
    have K_exB : ∀ a ∈ fpaths dst es,
        (writePairs (fs.addDir (targetOf dst e)) (entryWrites dst e)).existsPath a =
          fs.existsPath a := by
      intro a ha
      apply bool_eq_of_iff
      rw [existsPath_iff, existsPath_iff, w2 a, w4]
      constructor
      · rintro (⟨hf | ⟨dpc, hm, hq⟩⟩ | hd)
        · rw [isFile_addDir] at hf
          exact Or.inl hf
        · exfalso
          rw [K_wA dpc.1 (hm_l _ (List.mem_map_of_mem _ hm))] at hq
          rcases wpath_cases fs dpc.1 with h1 | h1 <;> rw [h1] at hq
          · exact disj (hq ▸ List.mem_map_of_mem _ hm) ha
          · exact hal dpc.1 (hm_l _ (List.mem_map_of_mem _ hm)) a (hm_es a ha) hq.symm
        · rcases (mem_dirs_addDir fs _ a).mp hd with heq | hq
          · exact absurd heq (K_A1 a (hm_es a ha))
          · exact Or.inr hq
      · rintro (hf | hd)
        · exact Or.inl (Or.inl (by rw [isFile_addDir]; exact hf))
        · exact Or.inr ((mem_dirs_addDir fs _ a).mpr (Or.inr hd))
    have K_wB : ∀ a ∈ fpaths dst es,
        wpath (writePairs (fs.addDir (targetOf dst e)) (entryWrites dst e)) a = wpath fs a := by
      intro a ha
      unfold wpath
      rw [K_exB a ha]
    -- hypotheses of the induction hypothesis
    have hal_es : ∀ a ∈ fpaths dst es, ∀ b ∈ fpaths dst es, copyName a ≠ b :=
      fun a ha b hb => hal a (hm_es a ha) b (hm_es b hb)
    have hinj_es : ∀ a ∈ fpaths dst es, ∀ b ∈ fpaths dst es,
        copyName a = copyName b → a = b :=
      fun a ha b hb => hinj a (hm_es a ha) b (hm_es b hb)
    have hsep_es : ∀ a ∈ fpaths dst es,
        a ∉ dirTargets dst es ∧ copyName a ∉ dirTargets dst es := by
      intro a ha
      obtain ⟨h1, h2⟩ := hsep a (hm_es a ha)
      exact ⟨fun hc => h1 (List.mem_cons_of_mem _ hc), fun hc => h2 (List.mem_cons_of_mem _ hc)⟩
    have hdt_es : ∀ t ∈ dirTargets dst es,
        (writePairs (fs.addDir (targetOf dst e)) (entryWrites dst e)).isFile t = false := by
      intro t ht
      apply bool_eq_false_of_not
      intro hcon
      rcases (w2 t).mp hcon with hf | ⟨dpc, hm, hq⟩
      · rw [isFile_addDir] at hf
        rw [hdt t (List.mem_cons_of_mem _ ht)] at hf
        simp at hf
      · have hdm : dpc.1 ∈ (entryWrites dst e).map (fun y => y.1) ++ fpaths dst es :=
          hm_l _ (List.mem_map_of_mem _ hm)
        rw [K_wA dpc.1 hdm] at hq
        rcases wpath_cases fs dpc.1 with h1 | h1 <;> rw [h1] at hq
        · exact (hsep dpc.1 hdm).1 (hq ▸ List.mem_cons_of_mem _ ht)
        · exact (hsep dpc.1 hdm).2 (hq ▸ List.mem_cons_of_mem _ ht)
    obtain ⟨r1, r2, r3, r4, r5⟩ :=
      ih (writePairs (fs.addDir (targetOf dst e)) (entryWrites dst e))
        nd_es hal_es hinj_es hsep_es hdt_es
    -- distinctness of adjusted paths across the head entry and the rest
    have cross_ne : ∀ dpc ∈ entryWrites dst e, ∀ dpc2 ∈ fileWrites dst es,
        wpath fs dpc.1 ≠ wpath fs dpc2.1 := by
      intro dpc hm dpc2 hm2
      have h1 : dpc.1 ∈ (entryWrites dst e).map (fun y => y.1) ++ fpaths dst es :=
        hm_l _ (List.mem_map_of_mem _ hm)
      have h2 : dpc2.1 ∈ (entryWrites dst e).map (fun y => y.1) ++ fpaths dst es :=
        hm_es _ (List.mem_map_of_mem _ hm2)
      have hne : dpc.1 ≠ dpc2.1 := by
        intro hcon
        exact disj (List.mem_map_of_mem _ hm) (hcon ▸ List.mem_map_of_mem _ hm2)
      exact wpath_ne_of_ne fs _ hal hinj dpc.1 dpc2.1 h1 h2 hne
    rw [hrun]
    refine ⟨r1, ?_, ?_, ?_, ?_⟩
    · intro dpc hmem
      rcases List.mem_append.mp hmem with hm | hm
      · have hfr : ∀ dpc2 ∈ fileWrites dst es,
            wpath fs dpc.1 ≠
              wpath (writePairs (fs.addDir (targetOf dst e)) (entryWrites dst e)) dpc2.1 := by
          intro dpc2 hm2
          rw [K_wB dpc2.1 (List.mem_map_of_mem _ hm2)]
          exact cross_ne dpc hm dpc2 hm2
        rw [r5 (wpath fs dpc.1) hfr]
        have hw := w1 dpc hm
        rw [K_wA dpc.1 (hm_l _ (List.mem_map_of_mem _ hm))] at hw
        exact hw
      · have hw := r2 dpc hm
        rw [K_wB dpc.1 (List.mem_map_of_mem _ hm)] at hw
        exact hw
    · intro q
      have hex_es : (∃ dpc ∈ fileWrites dst es,
          q = wpath (writePairs (fs.addDir (targetOf dst e)) (entryWrites dst e)) dpc.1) ↔
          (∃ dpc ∈ fileWrites dst es, q = wpath fs dpc.1) := by
        constructor
        · rintro ⟨dpc, hm, hq⟩
          exact ⟨dpc, hm, hq.trans (K_wB dpc.1 (List.mem_map_of_mem _ hm))⟩
        · rintro ⟨dpc, hm, hq⟩
          exact ⟨dpc, hm, hq.trans (K_wB dpc.1 (List.mem_map_of_mem _ hm)).symm⟩
      have hex_l : (∃ dpc ∈ entryWrites dst e,
          q = wpath (fs.addDir (targetOf dst e)) dpc.1) ↔
          (∃ dpc ∈ entryWrites dst e, q = wpath fs dpc.1) := by
        constructor
        · rintro ⟨dpc, hm, hq⟩
          exact ⟨dpc, hm, hq.trans (K_wA dpc.1 (hm_l _ (List.mem_map_of_mem _ hm)))⟩
        · rintro ⟨dpc, hm, hq⟩
          exact ⟨dpc, hm, hq.trans (K_wA dpc.1 (hm_l _ (List.mem_map_of_mem _ hm))).symm⟩
      rw [r3 q, hex_es, w2 q, hex_l, isFile_addDir]
      constructor
      · rintro ((hf | ⟨dpc, hm, hq⟩) | ⟨dpc, hm, hq⟩)
        · exact Or.inl hf
        · exact Or.inr ⟨dpc, List.mem_append_left _ hm, hq⟩
        · exact Or.inr ⟨dpc, List.mem_append_right _ hm, hq⟩
      · rintro (hf | ⟨dpc, hm, hq⟩)
        · exact Or.inl (Or.inl hf)
        · rcases List.mem_append.mp hm with h | h
          · exact Or.inl (Or.inr ⟨dpc, h, hq⟩)
          · exact Or.inr ⟨dpc, h, hq⟩
    · intro q
      rw [r4 q, w4, dirTargets_cons, mem_dirs_addDir]
      constructor
      · rintro ((rfl | hd) | ht)
        · exact Or.inr (List.mem_cons_self _ _)
        · exact Or.inl hd
        · exact Or.inr (List.mem_cons_of_mem _ ht)
      · rintro (hd | ht)
        · exact Or.inl (Or.inr hd)
        · rcases List.mem_cons.mp ht with rfl | h
          · exact Or.inl (Or.inl rfl)
          · exact Or.inr h
    · intro q hq
      have hq_l : ∀ dpc ∈ entryWrites dst e,
          q ≠ wpath (fs.addDir (targetOf dst e)) dpc.1 := by
        intro dpc hm
        rw [K_wA dpc.1 (hm_l _ (List.mem_map_of_mem _ hm))]
        exact hq dpc (List.mem_append_left _ hm)
      have hq_es : ∀ dpc ∈ fileWrites dst es,
          q ≠ wpath (writePairs (fs.addDir (targetOf dst e)) (entryWrites dst e)) dpc.1 := by
        intro dpc hm
        rw [K_wB dpc.1 (List.mem_map_of_mem _ hm)]
        exact hq dpc (List.mem_append_right _ hm)
      rw [r5 q hq_es, w3 q hq_l]
      exact lookup_addDir fs _ q

/-! ## Hypothesis-free bounds on the effects of the copier -/

theorem writePairs_dirs (l : List (String × String)) :
    ∀ fs : Fs, (writePairs fs l).dirs = fs.dirs := by
  induction l with
  | nil => intro fs; rfl
  | cons d l ih =>
    intro fs
    rw [writePairs_cons, ih]
    rfl

theorem writePairs_isFile_mono (l : List (String × String)) :
    ∀ (fs : Fs) (q : String), fs.isFile q = true → (writePairs fs l).isFile q = true := by
  induction l with
  | nil => intro fs q h; exact h
  | cons d l ih =>
    intro fs q h
    rw [writePairs_cons]
    exact ih _ q (isFile_write_mono fs (wpath fs d.1) d.2 q h)

theorem writePairs_isFile_sub (l : List (String × String)) :
    ∀ (fs : Fs) (q : String), (writePairs fs l).isFile q = true →
      fs.isFile q = true ∨ ∃ dpc ∈ l, q = dpc.1 ∨ q = copyName dpc.1 := by
  induction l with
  | nil => intro fs q h; exact Or.inl h
  | cons d l ih =>
    intro fs q h
    rw [writePairs_cons] at h
    rcases ih _ q h with hf | ⟨dpc, hm, hq⟩
    · rcases (isFile_write_iff fs (wpath fs d.1) d.2 q).mp hf with hq | hf2
      · rcases wpath_cases fs d.1 with h1 | h1 <;> rw [h1] at hq
        · exact Or.inr ⟨d, List.mem_cons_self d l, Or.inl hq⟩
        · exact Or.inr ⟨d, List.mem_cons_self d l, Or.inr hq⟩
      · exact Or.inl hf2
    · exact Or.inr ⟨dpc, List.mem_cons_of_mem _ hm, hq⟩

theorem writePairs_lookup_frame (l : List (String × String)) :
    ∀ (fs : Fs) (q : String), (∀ dpc ∈ l, q ≠ dpc.1 ∧ q ≠ copyName dpc.1) →
      (writePairs fs l).lookup q = fs.lookup q := by
  induction l with
  | nil => intro fs q _; rfl
  | cons d l ih =>
    intro fs q h
    rw [writePairs_cons]
    have hd := h d (List.mem_cons_self d l)
    have hne : q ≠ wpath fs d.1 := by
      rcases wpath_cases fs d.1 with h1 | h1 <;> rw [h1]
      · exact hd.1
      · exact hd.2
    rw [ih _ q (fun dpc hm => h dpc (List.mem_cons_of_mem _ hm))]
    exact lookup_write_ne fs (wpath fs d.1) d.2 q hne

theorem makedirs_cases (fs : Fs) (p : String) :
    (makedirs fs p = .ok (fs.addDir p) ∧ fs.isFile p = false) ∨
      (makedirs fs p = .error "FileExistsError" ∧ fs.isFile p = true) := by
  rcases hval : fs.isFile p with _ | _
  · exact Or.inl ⟨makedirs_ok fs p hval, rfl⟩
  · exact Or.inr ⟨by rw [makedirs, hval]; rfl, rfl⟩

theorem runEntries_cons_ok (dst : String) (e : WalkEntry) (es : List WalkEntry) (fs fs1 : Fs)
    (h : makedirs fs (targetOf dst e) = .ok fs1) :
    runEntries dst (e :: es) fs =
      runEntries dst es (writePairs fs1 (entryWrites dst e)) := by
  rw [runEntries, h]
  show runEntries dst es (writeFiles fs1 (targetOf dst e) e.fileItems) = _
  rw [writeFiles_entry]

theorem runEntries_cons_err (dst : String) (e : WalkEntry) (es : List WalkEntry) (fs : Fs)
    (msg : String) (h : makedirs fs (targetOf dst e) = .error msg) :
    runEntries dst (e :: es) fs = (fs, some msg) := by
  rw [runEntries, h]

theorem runEntries_isFile_mono (dst : String) (es : List WalkEntry) :
    ∀ (fs : Fs) (q : String), fs.isFile q = true →
      (runEntries dst es fs).1.isFile q = true := by
  induction es with
  | nil => intro fs q h; exact h
  | cons e es ih =>
    intro fs q h
    rcases makedirs_cases fs (targetOf dst e) with ⟨hmk, hfl⟩ | ⟨hmk, hfl⟩
    · rw [runEntries_cons_ok dst e es fs _ hmk]
      apply ih
      apply writePairs_isFile_mono
      rw [isFile_addDir]
      exact h
    · rw [runEntries_cons_err dst e es fs _ hmk]
      exact h

theorem runEntries_dirs_mono (dst : String) (es : List WalkEntry) :
    ∀ (fs : Fs) (q : String), q ∈ fs.dirs → q ∈ (runEntries dst es fs).1.dirs := by
  induction es with
  | nil => intro fs q h; exact h
  | cons e es ih =>
    intro fs q h
    rcases makedirs_cases fs (targetOf dst e) with ⟨hmk, hfl⟩ | ⟨hmk, hfl⟩
    · rw [runEntries_cons_ok dst e es fs _ hmk]
      apply ih
      rw [writePairs_dirs]
      exact (mem_dirs_addDir fs _ q).mpr (Or.inr h)
    · rw [runEntries_cons_err dst e es fs _ hmk]
      exact h

theorem runEntries_isFile_sub (dst : String) (es : List WalkEntry) :
    ∀ (fs : Fs) (q : String), (runEntries dst es fs).1.isFile q = true →
      fs.isFile q = true ∨ ∃ dpc ∈ fileWrites dst es, q = dpc.1 ∨ q = copyName dpc.1 := by
  induction es with
  | nil => intro fs q h; exact Or.inl h
  | cons e es ih =>
    intro fs q h
    rcases makedirs_cases fs (targetOf dst e) with ⟨hmk, hfl⟩ | ⟨hmk, hfl⟩
    · rw [runEntries_cons_ok dst e es fs _ hmk] at h
      rcases ih _ q h with hf | ⟨dpc, hm, hq⟩
      · rcases writePairs_isFile_sub _ _ q hf with hf2 | ⟨dpc, hm, hq⟩
        · rw [isFile_addDir] at hf2
          exact Or.inl hf2
        · exact Or.inr ⟨dpc, by
            rw [fileWrites_cons]
            exact List.mem_append_left _ hm, hq⟩
      · exact Or.inr ⟨dpc, by
          rw [fileWrites_cons]
          exact List.mem_append_right _ hm, hq⟩
    · rw [runEntries_cons_err dst e es fs _ hmk] at h
      exact Or.inl h

theorem runEntries_dirs_sub (dst : String) (es : List WalkEntry) :
    ∀ (fs : Fs) (q : String), q ∈ (runEntries dst es fs).1.dirs →
      q ∈ fs.dirs ∨ q ∈ dirTargets dst es := by
  induction es with
  | nil => intro fs q h; exact Or.inl h
  | cons e es ih =>
    intro fs q h
    rcases makedirs_cases fs (targetOf dst e) with ⟨hmk, hfl⟩ | ⟨hmk, hfl⟩
    · rw [runEntries_cons_ok dst e es fs _ hmk] at h
      rcases ih _ q h with hd | hm
      · rw [writePairs_dirs] at hd
        rcases (mem_dirs_addDir fs _ q).mp hd with heq | hd2
        · exact Or.inr (by rw [dirTargets_cons, heq]; exact List.mem_cons_self _ _)
        · exact Or.inl hd2
      · exact Or.inr (by rw [dirTargets_cons]; exact List.mem_cons_of_mem _ hm)
    · rw [runEntries_cons_err dst e es fs _ hmk] at h
      exact Or.inl h

theorem runEntries_lookup_frame (dst : String) (es : List WalkEntry) :
    ∀ (fs : Fs) (q : String),
      (∀ dpc ∈ fileWrites dst es, q ≠ dpc.1 ∧ q ≠ copyName dpc.1) →
      (runEntries dst es fs).1.lookup q = fs.lookup q := by
  induction es with
  | nil => intro fs q _; rfl
  | cons e es ih =>
    intro fs q h
    rcases makedirs_cases fs (targetOf dst e) with ⟨hmk, hfl⟩ | ⟨hmk, hfl⟩
    · rw [runEntries_cons_ok dst e es fs _ hmk]
      rw [ih _ q (fun dpc hm => h dpc (by
        rw [fileWrites_cons]
        exact List.mem_append_right _ hm))]
      rw [writePairs_lookup_frame _ _ q (fun dpc hm => h dpc (by
        rw [fileWrites_cons]
        exact List.mem_append_left _ hm))]
      exact lookup_addDir fs _ q
    · rw [runEntries_cons_err dst e es fs _ hmk]

theorem runEntries_dirs_made (dst : String) (es : List WalkEntry) :
    ∀ (fs : Fs), (runEntries dst es fs).2 = none →
      ∀ t ∈ dirTargets dst es, t ∈ (runEntries dst es fs).1.dirs := by
  induction es with
  | nil =>
    intro fs _ t ht
    cases ht
  | cons e es ih =>
    intro fs hok t ht
    rcases makedirs_cases fs (targetOf dst e) with ⟨hmk, hfl⟩ | ⟨hmk, hfl⟩
    · rw [runEntries_cons_ok dst e es fs _ hmk] at hok ⊢
      rcases List.mem_cons.mp (by rw [dirTargets_cons] at ht; exact ht) with heq | hm
      · rw [heq]
        apply runEntries_dirs_mono
        rw [writePairs_dirs]
        exact (mem_dirs_addDir fs _ _).mpr (Or.inl rfl)
      · exact ih _ hok t hm
    · rw [runEntries_cons_err dst e es fs _ hmk] at hok
      cases hok

/-! ## Everything the copier touches lies under the destination -/

theorem startsWithStr_trans (a b c : String) (h1 : startsWithStr a b = true)
    (h2 : startsWithStr b c = true) : startsWithStr a c = true := by
  rcases (startsWithStr_iff _ _).mp h1 with ⟨r1, hr1⟩
  rcases (startsWithStr_iff _ _).mp h2 with ⟨r2, hr2⟩
  exact (startsWithStr_iff _ _).mpr ⟨r1 ++ r2, by rw [hr2, hr1, List.append_assoc]⟩

theorem under_trans (dst d2 q : String) (h1 : startsWithStr (dst ++ "/") d2 = true)
    (h2 : startsWithStr (d2 ++ "/") q = true) : startsWithStr (dst ++ "/") q = true :=
  startsWithStr_trans _ _ _ (startsWithStr_append _ _ _ h1) h2

theorem fileWrites_startsWith (dst : String) (es : List WalkEntry) :
    ∀ dpc ∈ fileWrites dst es, startsWithStr (dst ++ "/") dpc.1 = true := by
  intro dpc hm
  rcases List.mem_flatMap.mp hm with ⟨e, he, hmem⟩
  rcases List.mem_map.mp hmem with ⟨fc, hfc, heq⟩
  rw [← heq]
  show startsWithStr (dst ++ "/") (pjoin (targetOf dst e) fc.1) = true
  unfold targetOf
  by_cases hrel : e.rel = "."
  · rw [if_pos hrel]
    exact startsWithStr_pjoin dst fc.1
  · rw [if_neg hrel]
    exact startsWithStr_trans_pjoin dst (pjoin dst e.rel) fc.1 (startsWithStr_pjoin dst e.rel)

theorem dirTargets_under (dst : String) (es : List WalkEntry) :
    ∀ t ∈ dirTargets dst es, t = dst ∨ startsWithStr (dst ++ "/") t = true := by
  intro t hm
  rcases List.mem_map.mp hm with ⟨e, he, heq⟩
  rw [← heq]
  unfold targetOf
  by_cases hrel : e.rel = "."
  · rw [if_pos hrel]
    exact Or.inl rfl
  · rw [if_neg hrel]
    exact Or.inr (startsWithStr_pjoin dst e.rel)

/-- Every file path `_copy_tree` can write (computed or `_copy`-adjusted)
lies strictly under the destination root of the walk. -/
theorem fileWrites_under_both (dst : String) (es : List WalkEntry) :
    ∀ dpc ∈ fileWrites dst es, ∀ q, (q = dpc.1 ∨ q = copyName dpc.1) →
      startsWithStr (dst ++ "/") q = true := by
  intro dpc hm q hq
  have h1 := fileWrites_startsWith dst es dpc hm
  rcases hq with rfl | rfl
  · exact h1
  · exact startsWithStr_copyName dst dpc.1 h1

/-! ## Step equations for the batch loop -/

theorem copy_paths_nil (world : String → Src) (dst : String) (fs : Fs) :
    copy_paths world dst [] fs = (fs, none) := rfl

theorem makedirs_fail (fs : Fs) (p : String) (h : fs.isFile p = true) :
    makedirs fs p = .error "FileExistsError" := by
  simp [makedirs, h]

theorem copy_paths_dir_ok (world : String → Src) (dst p : String) (ps : List String)
    (fs fs1 : Fs) (cs : List Entry) (hw : world p = .dirE cs)
    (hct : copy_tree cs (pjoin dst (dirTargetName p)) fs = (fs1, none)) :
    copy_paths world dst (p :: ps) fs = copy_paths world dst ps fs1 := by
  rw [copy_paths, hw]
  show (match copy_tree cs (pjoin dst (dirTargetName p)) fs with
        | (fs1, none) => copy_paths world dst ps fs1
        | (fs1, some msg) => (fs1, some msg)) = copy_paths world dst ps fs1
  rw [hct]

theorem copy_paths_dir_err (world : String → Src) (dst p : String) (ps : List String)
    (fs fs1 : Fs) (cs : List Entry) (msg : String) (hw : world p = .dirE cs)
    (hct : copy_tree cs (pjoin dst (dirTargetName p)) fs = (fs1, some msg)) :
    copy_paths world dst (p :: ps) fs = (fs1, some msg) := by
  rw [copy_paths, hw]
  show (match copy_tree cs (pjoin dst (dirTargetName p)) fs with
        | (fs1, none) => copy_paths world dst ps fs1
        | (fs1, some msg) => (fs1, some msg)) = (fs1, some msg)
  rw [hct]

theorem copy_paths_file_ok (world : String → Src) (dst p : String) (ps : List String)
    (fs : Fs) (c : String) (hw : world p = .fileE c) (hfl : fs.isFile dst = false) :
    copy_paths world dst (p :: ps) fs =
      copy_paths world dst ps ((fs.addDir dst).write (pjoin dst (basenameStr p)) c) := by
  rw [copy_paths, hw]
  show (match makedirs fs dst with
        | .error msg => (fs, some msg)
        | .ok fs1 => copy_paths world dst ps (fs1.write (pjoin dst (basenameStr p)) c)) = _
  rw [makedirs_ok fs dst hfl]

theorem copy_paths_file_err (world : String → Src) (dst p : String) (ps : List String)
    (fs : Fs) (c : String) (hw : world p = .fileE c) (hfl : fs.isFile dst = true) :
    copy_paths world dst (p :: ps) fs = (fs, some "FileExistsError") := by
  rw [copy_paths, hw]
  show (match makedirs fs dst with
        | .error msg => (fs, some msg)
        | .ok fs1 => copy_paths world dst ps (fs1.write (pjoin dst (basenameStr p)) c)) = _
  rw [makedirs_fail fs dst hfl]

theorem copy_paths_missing_ok (world : String → Src) (dst p : String) (ps : List String)
    (fs : Fs) (hw : world p = .missing) (hfl : fs.isFile dst = false) :
    copy_paths world dst (p :: ps) fs = copy_paths world dst ps (fs.addDir dst) := by
  rw [copy_paths, hw]
  show (match makedirs fs dst with
        | .error msg => (fs, some msg)
        | .ok fs1 => copy_paths world dst ps fs1) = _
  rw [makedirs_ok fs dst hfl]

theorem copy_paths_missing_err (world : String → Src) (dst p : String) (ps : List String)
    (fs : Fs) (hw : world p = .missing) (hfl : fs.isFile dst = true) :
    copy_paths world dst (p :: ps) fs = (fs, some "FileExistsError") := by
  rw [copy_paths, hw]
  show (match makedirs fs dst with
        | .error msg => (fs, some msg)
        | .ok fs1 => copy_paths world dst ps fs1) = _
  rw [makedirs_fail fs dst hfl]

/-! ## Effect bounds lifted to `copy_tree` and `copy_paths` -/

theorem copy_tree_isFile_sub (cs : List Entry) (dst : String) (fs : Fs) (q : String)
    (h : (copy_tree cs dst fs).1.isFile q = true) :
    fs.isFile q = true ∨ startsWithStr (dst ++ "/") q = true := by
  rcases runEntries_isFile_sub dst (walkEntries cs) fs q h with hf | ⟨dpc, hm, hq⟩
  · exact Or.inl hf
  · exact Or.inr (fileWrites_under_both dst _ dpc hm q hq)

theorem copy_tree_dirs_sub (cs : List Entry) (dst : String) (fs : Fs) (q : String)
    (h : q ∈ (copy_tree cs dst fs).1.dirs) :
    q ∈ fs.dirs ∨ q = dst ∨ startsWithStr (dst ++ "/") q = true := by
  rcases runEntries_dirs_sub dst (walkEntries cs) fs q h with hd | hm
  · exact Or.inl hd
  · exact Or.inr (dirTargets_under dst _ q hm)

theorem copy_tree_isFile_mono (cs : List Entry) (dst : String) (fs : Fs) (q : String)
    (h : fs.isFile q = true) : (copy_tree cs dst fs).1.isFile q = true :=
  runEntries_isFile_mono dst (walkEntries cs) fs q h

theorem copy_tree_dirs_mono (cs : List Entry) (dst : String) (fs : Fs) (q : String)
    (h : q ∈ fs.dirs) : q ∈ (copy_tree cs dst fs).1.dirs :=
  runEntries_dirs_mono dst (walkEntries cs) fs q h

theorem copy_tree_lookup_frame (cs : List Entry) (dst : String) (fs : Fs) (q : String)
    (h : startsWithStr (dst ++ "/") q = false) :
    (copy_tree cs dst fs).1.lookup q = fs.lookup q := by
  apply runEntries_lookup_frame
  intro dpc hm
  have hu := fileWrites_under_both dst (walkEntries cs) dpc hm
  constructor
  · intro hcon
    have ht := hu q (Or.inl hcon)
    rw [ht] at h
    simp at h
  · intro hcon
    have ht := hu q (Or.inr hcon)
    rw [ht] at h
    simp at h

theorem copy_tree_dirs_frame (cs : List Entry) (dst : String) (fs : Fs) (q : String)
    (hne : q ≠ dst) (h : startsWithStr (dst ++ "/") q = false) :
    q ∈ (copy_tree cs dst fs).1.dirs ↔ q ∈ fs.dirs := by
  constructor
  · intro hm
    rcases copy_tree_dirs_sub cs dst fs q hm with hd | heq | hsw
    · exact hd
    · exact absurd heq hne
    · rw [hsw] at h
      simp at h
  · exact copy_tree_dirs_mono cs dst fs q

/-- Frame and bound properties of the whole batch loop, whether or not it
raises: every file written lies strictly under the destination, every
directory created is the destination or lies strictly under it, nothing is
ever deleted, and every path outside the destination subtree is untouched. -/
theorem copy_paths_frame (world : String → Src) (dst : String) (ps : List String) :
    ∀ fs : Fs,
    (∀ q, (copy_paths world dst ps fs).1.isFile q = true →
      fs.isFile q = true ∨ startsWithStr (dst ++ "/") q = true)
    ∧ (∀ q, q ∈ (copy_paths world dst ps fs).1.dirs →
      q ∈ fs.dirs ∨ q = dst ∨ startsWithStr (dst ++ "/") q = true)
    ∧ (∀ q, fs.isFile q = true → (copy_paths world dst ps fs).1.isFile q = true)
    ∧ (∀ q, q ∈ fs.dirs → q ∈ (copy_paths world dst ps fs).1.dirs)
    ∧ (∀ q, q ≠ dst → startsWithStr (dst ++ "/") q = false →
      ((copy_paths world dst ps fs).1.lookup q = fs.lookup q
        ∧ (q ∈ (copy_paths world dst ps fs).1.dirs ↔ q ∈ fs.dirs))) := by
  induction ps with
  | nil =>
    intro fs
    exact ⟨fun q h => Or.inl h, fun q h => Or.inl h, fun q h => h, fun q h => h,
      fun q _ _ => ⟨rfl, Iff.rfl⟩⟩
  | cons p ps ih =>
    intro fs
    rcases hw : world p with cs | c | _
    case dirE =>
      rcases hct : copy_tree cs (pjoin dst (dirTargetName p)) fs with ⟨fs1, r⟩
      have hpj : startsWithStr (dst ++ "/") (pjoin dst (dirTargetName p)) = true :=
        startsWithStr_pjoin dst (dirTargetName p)
      have hstep_f : ∀ q, fs1.isFile q = true →
          fs.isFile q = true ∨ startsWithStr (dst ++ "/") q = true := by
        intro q h
        have h2 := copy_tree_isFile_sub cs (pjoin dst (dirTargetName p)) fs q (by
          rw [hct]; exact h)
        rcases h2 with hf | hsw
        · exact Or.inl hf
        · exact Or.inr (under_trans dst _ q hpj hsw)
      have hstep_d : ∀ q, q ∈ fs1.dirs →
          q ∈ fs.dirs ∨ q = dst ∨ startsWithStr (dst ++ "/") q = true := by
        intro q h
        have h2 := copy_tree_dirs_sub cs (pjoin dst (dirTargetName p)) fs q (by
          rw [hct]; exact h)
        rcases h2 with hd | heq | hsw
        · exact Or.inl hd
        · exact Or.inr (Or.inr (by rw [heq]; exact hpj))
        · exact Or.inr (Or.inr (under_trans dst _ q hpj hsw))
      have hstep_fm : ∀ q, fs.isFile q = true → fs1.isFile q = true := by
        intro q h
        have h2 := copy_tree_isFile_mono cs (pjoin dst (dirTargetName p)) fs q h
        rw [hct] at h2
        exact h2
      have hstep_dm : ∀ q, q ∈ fs.dirs → q ∈ fs1.dirs := by
        intro q h
        have h2 := copy_tree_dirs_mono cs (pjoin dst (dirTargetName p)) fs q h
        rw [hct] at h2
        exact h2
      have hstep_fr : ∀ q, q ≠ dst → startsWithStr (dst ++ "/") q = false →
          (fs1.lookup q = fs.lookup q ∧ (q ∈ fs1.dirs ↔ q ∈ fs.dirs)) := by
        intro q hne hsw
        have hsw2 : startsWithStr (pjoin dst (dirTargetName p) ++ "/") q = false := by
          apply bool_eq_false_of_not
          intro hcon
          rw [under_trans dst _ q hpj hcon] at hsw
          simp at hsw
        have hne2 : q ≠ pjoin dst (dirTargetName p) := by
          intro hcon
          rw [hcon, hpj] at hsw
          simp at hsw
        have h1 := copy_tree_lookup_frame cs (pjoin dst (dirTargetName p)) fs q hsw2
        have h2 := copy_tree_dirs_frame cs (pjoin dst (dirTargetName p)) fs q hne2 hsw2
        rw [hct] at h1 h2
        exact ⟨h1, h2⟩
      rcases r with _ | msg
      · rw [copy_paths_dir_ok world dst p ps fs fs1 cs hw hct]
        obtain ⟨i1, i2, i3, i4, i5⟩ := ih fs1
        refine ⟨?_, ?_, ?_, ?_, ?_⟩
        · intro q h
          rcases i1 q h with hf | hsw
          · exact hstep_f q hf
          · exact Or.inr hsw
        · intro q h
          rcases i2 q h with hd | hrest
          · exact hstep_d q hd
          · exact Or.inr hrest
        · intro q h
          exact i3 q (hstep_fm q h)
        · intro q h
          exact i4 q (hstep_dm q h)
        · intro q hne hsw
          obtain ⟨j1, j2⟩ := i5 q hne hsw
          obtain ⟨k1, k2⟩ := hstep_fr q hne hsw
          exact ⟨j1.trans k1, j2.trans k2⟩
      · rw [copy_paths_dir_err world dst p ps fs fs1 cs msg hw hct]
        exact ⟨hstep_f, hstep_d, hstep_fm, hstep_dm, hstep_fr⟩
    case fileE =>
      rcases hfl : fs.isFile dst with _ | _
      · rw [copy_paths_file_ok world dst p ps fs c hw hfl]
        obtain ⟨i1, i2, i3, i4, i5⟩ := ih ((fs.addDir dst).write (pjoin dst (basenameStr p)) c)
        have hpj : startsWithStr (dst ++ "/") (pjoin dst (basenameStr p)) = true :=
          startsWithStr_pjoin dst (basenameStr p)
        refine ⟨?_, ?_, ?_, ?_, ?_⟩
        · intro q h
          rcases i1 q h with hf | hsw
          · rcases (isFile_write_iff _ _ _ q).mp hf with heq | hf2
            · exact Or.inr (by rw [heq]; exact hpj)
            · rw [isFile_addDir] at hf2
              exact Or.inl hf2
          · exact Or.inr hsw
        · intro q h
          rcases i2 q h with hd | hrest
          · rw [dirs_write] at hd
            rcases (mem_dirs_addDir fs dst q).mp hd with heq | hd2
            · exact Or.inr (Or.inl heq)
            · exact Or.inl hd2
          · exact Or.inr hrest
        · intro q h
          apply i3
          apply isFile_write_mono
          rw [isFile_addDir]
          exact h
        · intro q h
          apply i4
          rw [dirs_write]
          exact (mem_dirs_addDir fs dst q).mpr (Or.inr h)
        · intro q hne hsw
          obtain ⟨j1, j2⟩ := i5 q hne hsw
          have hne2 : q ≠ pjoin dst (basenameStr p) := by
            intro hcon
            rw [hcon, hpj] at hsw
            simp at hsw
          constructor
          · rw [j1, lookup_write_ne _ _ _ q hne2, lookup_addDir]
          · rw [j2, dirs_write]
            constructor
            · intro hm
              rcases (mem_dirs_addDir fs dst q).mp hm with heq | hd
              · exact absurd heq hne
              · exact hd
            · intro hm
              exact (mem_dirs_addDir fs dst q).mpr (Or.inr hm)
      · rw [copy_paths_file_err world dst p ps fs c hw hfl]
        exact ⟨fun q h => Or.inl h, fun q h => Or.inl h, fun q h => h, fun q h => h,
          fun q _ _ => ⟨rfl, Iff.rfl⟩⟩
    case missing =>
      rcases hfl : fs.isFile dst with _ | _
      · rw [copy_paths_missing_ok world dst p ps fs hw hfl]
        obtain ⟨i1, i2, i3, i4, i5⟩ := ih (fs.addDir dst)
        refine ⟨?_, ?_, ?_, ?_, ?_⟩
        · intro q h
          rcases i1 q h with hf | hsw
          · rw [isFile_addDir] at hf
            exact Or.inl hf
          · exact Or.inr hsw
        · intro q h
          rcases i2 q h with hd | hrest
          · rcases (mem_dirs_addDir fs dst q).mp hd with heq | hd2
            · exact Or.inr (Or.inl heq)
            · exact Or.inl hd2
          · exact Or.inr hrest
        · intro q h
          apply i3
          rw [isFile_addDir]
          exact h
        · intro q h
          exact i4 q ((mem_dirs_addDir fs dst q).mpr (Or.inr h))
        · intro q hne hsw
          obtain ⟨j1, j2⟩ := i5 q hne hsw
          constructor
          · rw [j1, lookup_addDir]
          · rw [j2]
            constructor
            · intro hm
              rcases (mem_dirs_addDir fs dst q).mp hm with heq | hd
              · exact absurd heq hne
              · exact hd
            · intro hm
              exact (mem_dirs_addDir fs dst q).mpr (Or.inr hm)
      · rw [copy_paths_missing_err world dst p ps fs hw hfl]
        exact ⟨fun q h => Or.inl h, fun q h => Or.inl h, fun q h => h, fun q h => h,
          fun q _ _ => ⟨rfl, Iff.rfl⟩⟩

/-! ## Walk structure: flattening count and visited directories -/

/-- The child labels one walk entry contributes to the display tree:
its subdirectory names followed by its file names. -/
def itemsOf (e : WalkEntry) : List String :=
  e.dirNames ++ e.fileItems.map (fun fc => fc.1)

theorem dirNames_files_len (cs : List Entry) :
    (dirNamesOf cs).length + (filesOf cs).length = cs.length := by
  induction cs with
  | nil => rfl
  | cons e es ih =>
    cases e with
    | file n c =>
      show (dirNamesOf es).length + ((n, c) :: filesOf es).length = es.length + 1
      rw [List.length_cons]
      omega
    | dir n sub =>
      show (n :: dirNamesOf es).length + (filesOf es).length = es.length + 1
      rw [List.length_cons]
      omega

theorem walkForest_items_len : ∀ (rel : String) (cs : List Entry),
    ((walkForest rel cs).flatMap itemsOf).length + cs.length =
      filesCount cs + dirsCount cs
  | _, [] => by simp [walkForest, filesCount, dirsCount]
  | rel, .file n c :: es => by
    have ih := walkForest_items_len rel es
    simp only [walkForest, filesCount, dirsCount, List.length_cons]
    omega
  | rel, .dir n sub :: es => by
    have ih1 := walkForest_items_len (childRel rel n) sub
    have ih2 := walkForest_items_len rel es
    have hlen := dirNames_files_len sub
    simp only [walkForest, filesCount, dirsCount, List.length_cons, List.flatMap_append,
      List.flatMap_cons, List.length_append, itemsOf, List.length_map]
    omega

theorem walkForest_rels : ∀ (rel : String) (cs : List Entry),
    (walkForest rel cs).map (fun e => e.rel) = dirRels rel cs
  | _, [] => by simp [walkForest, dirRels]
  | rel, .file n c :: es => by
    simp only [walkForest, dirRels]
    exact walkForest_rels rel es
  | rel, .dir n sub :: es => by
    simp only [walkForest, dirRels, List.map_append, List.map_cons, List.cons_append,
      walkForest_rels (childRel rel n) sub, walkForest_rels rel es]

/-! ## Enumeration invariants -/

theorem winStep_sub (bm : Nat) (dt : Nat → Option Nat) (acc : List String) (i : Nat)
    (p : String) (h : p ∈ winStep bm dt acc i) :
    p ∈ acc ∨ ((bm &&& (1 <<< i)) ≠ 0 ∧ dt i = some 2 ∧ p = driveLetter i) := by
  unfold winStep at h
  split at h
  · next hbit =>
    split at h
    · next t hdt =>
      split at h
      · next ht =>
        rcases List.mem_append.mp h with hacc | hp
        · exact Or.inl hacc
        · right
          have ht2 : t = 2 := by simpa using ht
          refine ⟨by simpa using hbit, by rw [hdt, ht2], by simpa using hp⟩
      · exact Or.inl h
    · exact Or.inl h
  · exact Or.inl h

theorem winFold_sub (bm : Nat) (dt : Nat → Option Nat) :
    ∀ (l : List Nat) (acc : List String) (p : String),
    p ∈ l.foldl (winStep bm dt) acc →
    p ∈ acc ∨ ∃ i ∈ l, (bm &&& (1 <<< i)) ≠ 0 ∧ dt i = some 2 ∧ p = driveLetter i := by
  intro l
  induction l with
  | nil =>
    intro acc p h
    exact Or.inl h
  | cons i l ih =>
    intro acc p h
    rw [List.foldl_cons] at h
    rcases ih _ p h with hacc | ⟨j, hj, hcond⟩
    · rcases winStep_sub bm dt acc i p hacc with h1 | h2
      · exact Or.inl h1
      · exact Or.inr ⟨i, List.mem_cons_self i l, h2⟩
    · exact Or.inr ⟨j, List.mem_cons_of_mem _ hj, hcond⟩

/-- Invariant of the POSIX scan: the collected drives are duplicate-free,
all mount points, and all recorded in the seen set. -/
def ScanInv (st : PosixFsView) (acc : List String × List String) : Prop :=
  acc.1.Nodup ∧ (∀ p ∈ acc.1, st.ismount p = true) ∧ (∀ p ∈ acc.1, p ∈ acc.2)

theorem posixEntryStep_inv (st : PosixFsView) (base : String)
    (acc : List String × List String) (entry : String) (h : ScanInv st acc) :
    ScanInv st (posixEntryStep st base acc entry) := by
  obtain ⟨hnd, hmt, hsub⟩ := h
  show ScanInv st
    (if (st.ismount (pjoin base entry) && !acc.2.contains (pjoin base entry)) = true then
      (acc.1 ++ [pjoin base entry], pjoin base entry :: acc.2)
    else acc)
  split
  · next hcond =>
    have hmount : st.ismount (pjoin base entry) = true := (Bool.and_eq_true _ _).mp hcond |>.1
    have hseen : pjoin base entry ∉ acc.2 := by
      have h2 := ((Bool.and_eq_true _ _).mp hcond).2
      intro hmem
      rw [Bool.not_eq_true'] at h2
      rw [(by simpa using hmem : acc.2.contains (pjoin base entry) = true)] at h2
      cases h2
    refine ⟨?_, ?_, ?_⟩
    · rw [List.nodup_append]
      refine ⟨hnd, List.nodup_singleton _, ?_⟩
      intro x hx hx2
      rw [List.mem_singleton.mp hx2] at hx
      exact hseen (hsub _ hx)
    · intro p hp
      rcases List.mem_append.mp hp with hp1 | hp2
      · exact hmt p hp1
      · rw [List.mem_singleton.mp hp2]
        exact hmount
    · intro p hp
      rcases List.mem_append.mp hp with hp1 | hp2
      · exact List.mem_cons_of_mem _ (hsub p hp1)
      · rw [List.mem_singleton.mp hp2]
        exact List.mem_cons_self _ _
  · exact ⟨hnd, hmt, hsub⟩

theorem posixScanBase_inv (st : PosixFsView) (base : String) :
    ∀ (entries : List String) (acc : List String × List String), ScanInv st acc →
      ScanInv st (posixScanBase st base acc entries) := by
  intro entries
  induction entries with
  | nil =>
    intro acc h
    exact h
  | cons entry entries ih =>
    intro acc h
    show ScanInv st ((entry :: entries).foldl (posixEntryStep st base) acc)
    rw [List.foldl_cons]
    exact ih _ (posixEntryStep_inv st base acc entry h)

theorem posixScanBases_inv (st : PosixFsView) :
    ∀ (bases : List String) (acc res : List String × List String), ScanInv st acc →
      posixScanBases st bases acc = .ok res → ScanInv st res := by
  intro bases
  induction bases with
  | nil =>
    intro acc res h heq
    rw [posixScanBases] at heq
    cases heq
    exact h
  | cons base bases ih =>
    intro acc res h heq
    rw [posixScanBases] at heq
    split at heq
    · split at heq
      · exact ih _ res (posixScanBase_inv st base _ acc h) heq
      · exact ih _ res h heq
      · cases heq
    · exact ih _ res h heq

theorem populate_children_len (p : String) (cs : List Entry) :
    (populate_tree p cs).children.length = filesCount cs + dirsCount cs := by
  show ((walkEntries cs).flatMap itemsOf).length = filesCount cs + dirsCount cs
  rw [walkEntries, List.flatMap_cons, List.length_append]
  have h1 : (itemsOf ⟨".", dirNamesOf cs, filesOf cs⟩).length = cs.length := by
    show (dirNamesOf cs ++ (filesOf cs).map (fun fc => fc.1)).length = cs.length
    rw [List.length_append, List.length_map]
    have := dirNames_files_len cs
    omega
  have h2 := walkForest_items_len "." cs
  omega

/-! ## Concrete walk evaluations used by the witnesses -/

theorem walkEntries_file_eq (n c : String) :
    walkEntries [Entry.file n c] = [⟨".", [], [(n, c)]⟩] := by
  simp [walkEntries, walkForest, dirNamesOf, filesOf]

theorem walkEntries_emptyDir_eq (n : String) :
    walkEntries [Entry.dir n []] = [⟨".", [n], []⟩, ⟨n, [], []⟩] := by
  simp [walkEntries, walkForest, dirNamesOf, filesOf, childRel]

theorem dirRels_emptyDir_eq (n : String) :
    dirRels "." [Entry.dir n []] = [n] := by
  simp [dirRels, childRel]

/-! ## Claims -/

/-- C1, counterexample: the claim fails for a plain-file source.  With the
destination already holding `f.txt` with content `old`, copying a plain
file `f.txt` replaces it: the target path existed before the write and the
copier overwrote it with the new content. -/
theorem claim1_counterexample :
    ((⟨[("/dest/f.txt", "old")], ["/dest"]⟩ : Fs).existsPath "/dest/f.txt" = true)
    ∧ ((⟨[("/dest/f.txt", "old")], ["/dest"]⟩ : Fs).lookup "/dest/f.txt" = some "old")
    ∧ (copy_paths (fun p => if p = "/usb/f.txt" then Src.fileE "new" else Src.missing)
        "/dest" ["/usb/f.txt"] ⟨[("/dest/f.txt", "old")], ["/dest"]⟩).1.lookup "/dest/f.txt"
        = some "new" := by
  refine ⟨rfl, rfl, ?_⟩
  rfl

/-- C1, amended: only the directory walk refuses to replace an existing
file at the computed destination path — each single write whose computed
path exists at check time is diverted to the `_copy`-suffixed path and the
file at the computed path keeps its content; the plain-file branch, by
contrast, overwrites an existing destination file of the same name. -/
theorem claim1_amended :
    (∀ (fs : Fs) (dp c : String), fs.existsPath dp = true →
      copyOneFile fs dp c = fs.write (copyName dp) c
        ∧ (copyOneFile fs dp c).lookup dp = fs.lookup dp)
    ∧ (∀ (world : String → Src) (dst p : String) (fs : Fs) (c c0 : String),
      world p = .fileE c → fs.isFile dst = false →
      fs.lookup (pjoin dst (basenameStr p)) = some c0 →
      (copy_paths world dst [p] fs).1.lookup (pjoin dst (basenameStr p)) = some c) := by
  constructor
  · intro fs dp c hex
    constructor
    · rw [copyOneFile_eq, wpath_of_exists fs dp hex]
    · rw [copyOneFile_eq, wpath_of_exists fs dp hex]
      exact lookup_write_ne fs (copyName dp) c dp (Ne.symm (copyName_ne dp))
  · intro world dst p fs c c0 hw hfl hold
    rw [copy_paths_file_ok world dst p [] fs c hw hfl, copy_paths_nil]
    exact lookup_write_self _ _ _

/-- Witness for the amended C1 at concrete inputs: a colliding write inside
a directory walk goes to the `_copy` path and preserves the old file, and
a plain-file copy overwrites. -/
theorem claim1_witness :
    ((⟨[("/d/a.txt", "x")], []⟩ : Fs).existsPath "/d/a.txt" = true)
    ∧ copyOneFile ⟨[("/d/a.txt", "x")], []⟩ "/d/a.txt" "y" =
        (⟨[("/d/a.txt", "x")], []⟩ : Fs).write "/d/a_copy.txt" "y"
    ∧ (copyOneFile ⟨[("/d/a.txt", "x")], []⟩ "/d/a.txt" "y").lookup "/d/a.txt" = some "x"
    ∧ (copy_paths (fun p => if p = "/u/b.txt" then Src.fileE "n" else Src.missing)
        "/e" ["/u/b.txt"] ⟨[("/e/b.txt", "o")], []⟩).1.lookup "/e/b.txt" = some "n" := by
  have h1 := claim1_amended.1 ⟨[("/d/a.txt", "x")], []⟩ "/d/a.txt" "y" (by decide)
  have h2 := claim1_amended.2
    (fun p => if p = "/u/b.txt" then Src.fileE "n" else Src.missing)
    "/e" "/u/b.txt" ⟨[("/e/b.txt", "o")], []⟩ "n" "o" rfl (by decide) rfl
  exact ⟨by decide, h1.1, h1.2, h2⟩

/-- C2: copying a directory source into a destination where a computed
target file path already exists leaves the existing destination file
unchanged and copies the source file to the `_copy`-suffixed path, so both
files exist afterwards.  The hypotheses exclude aliasing between distinct
computed paths, their `_copy` names and the created target directories
(the single-attempt rename documented by the spec does not resolve such
aliasing). -/
theorem claim2 (cs : List Entry) (dst : String) (fs0 : Fs) (dp c : String)
    (hmem : (dp, c) ∈ fileWrites dst (walkEntries cs))
    (hfile : fs0.isFile dp = true)
    (hnd : (fpaths dst (walkEntries cs)).Nodup)
    (hal : ∀ a ∈ fpaths dst (walkEntries cs), ∀ b ∈ fpaths dst (walkEntries cs),
      copyName a ≠ b)
    (hinj : ∀ a ∈ fpaths dst (walkEntries cs), ∀ b ∈ fpaths dst (walkEntries cs),
      copyName a = copyName b → a = b)
    (hsep : ∀ a ∈ fpaths dst (walkEntries cs),
      a ∉ dirTargets dst (walkEntries cs) ∧ copyName a ∉ dirTargets dst (walkEntries cs))
    (hdt : ∀ t ∈ dirTargets dst (walkEntries cs), fs0.isFile t = false) :
    (copy_tree cs dst fs0).2 = none
    ∧ (copy_tree cs dst fs0).1.lookup dp = fs0.lookup dp
    ∧ (copy_tree cs dst fs0).1.lookup (copyName dp) = some c
    ∧ (copy_tree cs dst fs0).1.isFile dp = true
    ∧ (copy_tree cs dst fs0).1.isFile (copyName dp) = true := by
  obtain ⟨m1, m2, m3, m4, m5⟩ := runEntries_main dst (walkEntries cs) fs0 hnd hal hinj hsep hdt
  have hdp_mem : dp ∈ fpaths dst (walkEntries cs) := by
    exact List.mem_map_of_mem _ hmem
  have hex : fs0.existsPath dp = true := (existsPath_iff fs0 dp).mpr (Or.inl hfile)
  have hw : wpath fs0 dp = copyName dp := wpath_of_exists fs0 dp hex
  have hlook : (copy_tree cs dst fs0).1.lookup (copyName dp) = some c := by
    have h := m2 (dp, c) hmem
    rw [hw] at h
    exact h
  refine ⟨m1, ?_, hlook, ?_, ?_⟩
  · apply m5
    intro dpc hm
    by_cases hdpc : dpc.1 = dp
    · rw [hdpc, hw]
      exact Ne.symm (copyName_ne dp)
    · rcases wpath_cases fs0 dpc.1 with h1 | h1 <;> rw [h1]
      · exact fun hcon => hdpc hcon.symm
      · intro hcon
        exact hal dpc.1 (List.mem_map_of_mem _ hm) dp hdp_mem hcon.symm
  · exact runEntries_isFile_mono dst (walkEntries cs) fs0 dp hfile
  · rw [Fs.isFile, hlook]
    rfl

/-- Witness for C2: destination already holds `photo.jpg` with content
`old`; copying a directory containing `photo.jpg` with content `new`
leaves `photo.jpg` at `old` and creates `photo_copy.jpg` with `new`. -/
theorem claim2_witness :
    (copy_tree [Entry.file "photo.jpg" "new"] "/d"
      ⟨[("/d/photo.jpg", "old")], []⟩).1.lookup "/d/photo.jpg" = some "old"
    ∧ (copy_tree [Entry.file "photo.jpg" "new"] "/d"
      ⟨[("/d/photo.jpg", "old")], []⟩).1.lookup "/d/photo_copy.jpg" = some "new" := by
  have h := claim2 [Entry.file "photo.jpg" "new"] "/d" ⟨[("/d/photo.jpg", "old")], []⟩
    "/d/photo.jpg" "new"
    (by rw [walkEntries_file_eq]; decide)
    (by decide)
    (by rw [walkEntries_file_eq]; decide)
    (by rw [walkEntries_file_eq]; decide)
    (by rw [walkEntries_file_eq]; decide)
    (by rw [walkEntries_file_eq]; decide)
    (by rw [walkEntries_file_eq]; decide)
  refine ⟨?_, ?_⟩
  · rw [h.2.1]
    rfl
  · have := h.2.2.1
    exact this

/-- C4: materializing a root directory with N files and M subdirectories
at any depth produces one root node, labeled with the base name of the
root path (or the full path when the base name is empty), and exactly
N + M immediate children of that root node: the display hierarchy is
flattened to two levels. -/
theorem claim4 (root_path : String) (cs : List Entry) :
    (populate_tree root_path cs).label =
      (if basenameStr root_path = "" then root_path else basenameStr root_path)
    ∧ (populate_tree root_path cs).children.length = filesCount cs + dirsCount cs :=
  ⟨rfl, populate_children_len root_path cs⟩

/-- C3: re-running the same copy is not idempotent, in exactly this pair
of ways.  For a directory source copied into an initially fresh
destination, the second run writes a `_copy`-suffixed duplicate of every
already-copied file, so both `name.ext` and `name_copy.ext` exist, and no
further-suffixed name is ever produced (no uniqueness loop).  For a
plain-file source, a run against a destination already holding the file
silently overwrites it and creates no renamed copy. -/
theorem claim3 :
    (∀ (cs : List Entry) (dst : String) (fs0 : Fs),
      (fpaths dst (walkEntries cs)).Nodup →
      (∀ a ∈ fpaths dst (walkEntries cs), ∀ b ∈ fpaths dst (walkEntries cs),
        copyName a ≠ b) →
      (∀ a ∈ fpaths dst (walkEntries cs), ∀ b ∈ fpaths dst (walkEntries cs),
        copyName a = copyName b → a = b) →
      (∀ a ∈ fpaths dst (walkEntries cs),
        a ∉ dirTargets dst (walkEntries cs) ∧ copyName a ∉ dirTargets dst (walkEntries cs)) →
      (∀ a ∈ fpaths dst (walkEntries cs), fs0.existsPath a = false) →
      (∀ t ∈ dirTargets dst (walkEntries cs), fs0.isFile t = false) →
      (copy_tree cs dst fs0).2 = none
      ∧ (copy_tree cs dst (copy_tree cs dst fs0).1).2 = none
      ∧ (∀ dpc ∈ fileWrites dst (walkEntries cs),
          (copy_tree cs dst (copy_tree cs dst fs0).1).1.isFile dpc.1 = true
          ∧ (copy_tree cs dst (copy_tree cs dst fs0).1).1.isFile (copyName dpc.1) = true)
      ∧ (∀ q, (copy_tree cs dst (copy_tree cs dst fs0).1).1.isFile q = true →
          fs0.isFile q = true
          ∨ (∃ dpc ∈ fileWrites dst (walkEntries cs), q = dpc.1)
          ∨ (∃ dpc ∈ fileWrites dst (walkEntries cs), q = copyName dpc.1)))
    ∧ (∀ (world : String → Src) (dst p : String) (fs : Fs) (c c0 : String),
      world p = .fileE c → fs.isFile dst = false →
      fs.lookup (pjoin dst (basenameStr p)) = some c0 →
      (copy_paths world dst [p] fs).2 = none
      ∧ (copy_paths world dst [p] fs).1.lookup (pjoin dst (basenameStr p)) = some c
      ∧ (copy_paths world dst [p] fs).1.isFile (copyName (pjoin dst (basenameStr p)))
          = fs.isFile (copyName (pjoin dst (basenameStr p)))) := by
  constructor
  · intro cs dst fs0 hnd hal hinj hsep hfresh hdt
    obtain ⟨m1, m2, m3, m4, m5⟩ :=
      runEntries_main dst (walkEntries cs) fs0 hnd hal hinj hsep hdt
    have hw0 : ∀ a ∈ fpaths dst (walkEntries cs), wpath fs0 a = a := by
      intro a ha
      exact wpath_of_fresh fs0 a (hfresh a ha)
    have hfile1 : ∀ dpc ∈ fileWrites dst (walkEntries cs),
        (copy_tree cs dst fs0).1.isFile dpc.1 = true := by
      intro dpc hm
      apply (m3 dpc.1).mpr
      exact Or.inr ⟨dpc, hm, (hw0 dpc.1 (List.mem_map_of_mem _ hm)).symm⟩
    have hdt1 : ∀ t ∈ dirTargets dst (walkEntries cs),
        (copy_tree cs dst fs0).1.isFile t = false := by
      intro t ht
      apply bool_eq_false_of_not
      intro hcon
      rcases (m3 t).mp hcon with hf | ⟨dpc, hm, hq⟩
      · rw [hdt t ht] at hf
        simp at hf
      · rw [hw0 dpc.1 (List.mem_map_of_mem _ hm)] at hq
        exact (hsep dpc.1 (List.mem_map_of_mem _ hm)).1 (hq ▸ ht)
    obtain ⟨n1, n2, n3, n4, n5⟩ :=
      runEntries_main dst (walkEntries cs) (copy_tree cs dst fs0).1 hnd hal hinj hsep hdt1
    have hw1 : ∀ dpc ∈ fileWrites dst (walkEntries cs),
        wpath (copy_tree cs dst fs0).1 dpc.1 = copyName dpc.1 := by
      intro dpc hm
      apply wpath_of_exists
      exact (existsPath_iff _ dpc.1).mpr (Or.inl (hfile1 dpc hm))
    refine ⟨m1, n1, ?_, ?_⟩
    · intro dpc hm
      constructor
      · apply (n3 dpc.1).mpr
        exact Or.inl (hfile1 dpc hm)
      · have h := n2 dpc hm
        rw [hw1 dpc hm] at h
        show ((runEntries dst (walkEntries cs) (copy_tree cs dst fs0).1).1.lookup
          (copyName dpc.1)).isSome = true
        rw [h]
        rfl
    · intro q hq
      rcases (n3 q).mp hq with hf1 | ⟨dpc, hm, hq2⟩
      · rcases (m3 q).mp hf1 with hf0 | ⟨dpc, hm, hq2⟩
        · exact Or.inl hf0
        · rw [hw0 dpc.1 (List.mem_map_of_mem _ hm)] at hq2
          exact Or.inr (Or.inl ⟨dpc, hm, hq2⟩)
      · rw [hw1 dpc hm] at hq2
        exact Or.inr (Or.inr ⟨dpc, hm, hq2⟩)
  · intro world dst p fs c c0 hw hfl hold
    rw [copy_paths_file_ok world dst p [] fs c hw hfl, copy_paths_nil]
    refine ⟨rfl, lookup_write_self _ _ _, ?_⟩
    rw [isFile_write_ne _ _ _ _ (copyName_ne (pjoin dst (basenameStr p))), isFile_addDir]

/-- Witness for C3: copying the directory `[a.txt]` twice into an empty
destination yields both `a.txt` and `a_copy.txt` and nothing else new;
copying a plain file onto an existing copy of itself overwrites it with no
renamed duplicate. -/
theorem claim3_witness :
    (copy_tree [Entry.file "a.txt" "x"] "/d"
        (copy_tree [Entry.file "a.txt" "x"] "/d" ⟨[], []⟩).1).1.isFile "/d/a.txt" = true
    ∧ (copy_tree [Entry.file "a.txt" "x"] "/d"
        (copy_tree [Entry.file "a.txt" "x"] "/d" ⟨[], []⟩).1).1.isFile "/d/a_copy.txt" = true
    ∧ (copy_paths (fun q => if q = "/u/b.txt" then Src.fileE "n" else Src.missing)
        "/e" ["/u/b.txt"] ⟨[("/e/b.txt", "o")], []⟩).1.lookup "/e/b.txt" = some "n"
    ∧ (copy_paths (fun q => if q = "/u/b.txt" then Src.fileE "n" else Src.missing)
        "/e" ["/u/b.txt"] ⟨[("/e/b.txt", "o")], []⟩).1.isFile "/e/b_copy.txt" = false := by
  have hd := claim3.1 [Entry.file "a.txt" "x"] "/d" ⟨[], []⟩
    (by rw [walkEntries_file_eq]; decide)
    (by rw [walkEntries_file_eq]; decide)
    (by rw [walkEntries_file_eq]; decide)
    (by rw [walkEntries_file_eq]; decide)
    (by rw [walkEntries_file_eq]; decide)
    (by rw [walkEntries_file_eq]; decide)
  have hp := claim3.2 (fun q => if q = "/u/b.txt" then Src.fileE "n" else Src.missing)
    "/e" "/u/b.txt" ⟨[("/e/b.txt", "o")], []⟩ "n" "o" rfl (by decide) rfl
  have hdd := hd.2.2.1 ("/d/a.txt", "x") (by rw [walkEntries_file_eq]; decide)
  exact ⟨hdd.1, hdd.2, hp.2.1, hp.2.2⟩

/-- C5, counterexample: enumeration can raise.  On the mount-point
platform, listing an existing base directory can fail with an exception
other than the `PermissionError` that `app.py` line 97 catches (for
example `NotADirectoryError`), and that exception propagates out of the
enumeration; moreover `Path.home()` is evaluated while building the
candidate list, outside any `try`, and its failure also propagates. -/
theorem claim5_counterexample :
    list_removable_drives (.posix
      ⟨fun p => p == "/media",
       fun p => if p == "/media" then .raised "NotADirectoryError" else .permissionError,
       fun _ => false⟩ (.ok "/root")) = .error "NotADirectoryError"
    ∧ list_removable_drives (.posix
      ⟨fun _ => false, fun _ => .permissionError, fun _ => false⟩
      (.error "RuntimeError")) = .error "RuntimeError" :=
  ⟨rfl, rfl⟩

/-- C5, amended: enumeration never raises on the drive-letter platform
(its whole body sits inside a `try`); on the mount-point platform it
propagates a `Path.home()` failure and any listing failure other than the
caught `PermissionError`.  Whenever it returns a list, the list never
contains a path that failed its check: every drive-letter result passed
the removable-type test, and the mount-point result is duplicate-free
(de-duplicated by the joined base/entry path) and contains only mount
points. -/
theorem claim5_amended (bm : Nat) (dt : Nat → Option Nat) (st : PosixFsView)
    (home : Except String String) :
    (∃ l, list_removable_drives (.win bm dt) = .ok l)
    ∧ (∀ l, list_removable_drives (.win bm dt) = .ok l →
        ∀ p ∈ l, ∃ i, i < 26 ∧ (bm &&& (1 <<< i)) ≠ 0 ∧ dt i = some 2 ∧ p = driveLetter i)
    ∧ (∀ msg, home = .error msg → list_removable_drives (.posix st home) = .error msg)
    ∧ (∀ l, list_removable_drives (.posix st home) = .ok l →
        l.Nodup ∧ ∀ p ∈ l, st.ismount p = true) := by
  refine ⟨⟨_, rfl⟩, ?_, ?_, ?_⟩
  · intro l hl p hp
    rw [list_removable_drives] at hl
    injection hl with hl2
    rw [← hl2] at hp
    rcases winFold_sub bm dt (List.range 26) [] p hp with habs | ⟨i, hi, hcond⟩
    · cases habs
    · exact ⟨i, List.mem_range.mp hi, hcond⟩
  · intro msg hmsg
    rw [hmsg]
    rfl
  · intro l hl
    rcases home with msg | h
    · have hl2 : (Except.error msg : Except String (List String)) = .ok l := hl
      cases hl2
    · have hl2 : (match posixScanBases st (posixCandidates h) ([], []) with
          | .ok acc => (Except.ok acc.1 : Except String (List String))
          | .error msg => .error msg) = .ok l := hl
      rcases hres : posixScanBases st (posixCandidates h) ([], []) with msg | acc
      · rw [hres] at hl2
        cases hl2
      · rw [hres] at hl2
        injection hl2 with hl3
        have hinv := posixScanBases_inv st (posixCandidates h) ([], []) acc
          ⟨List.nodup_nil, fun p hp => absurd hp (List.not_mem_nil p), fun p hp =>
            absurd hp (List.not_mem_nil p)⟩ hres
        rw [← hl3]
        exact ⟨hinv.1, hinv.2.1⟩

/-- Witness for the amended C5 at concrete OS states: the removable drive
letter passes the type check, a failing home computation propagates, and a
successful mount-point scan returns a duplicate-free list of mount
points. -/
theorem claim5_amended_witness :
    (∃ i, i < 26 ∧ ((1 : Nat) &&& (1 <<< i)) ≠ 0
      ∧ (fun j => if j = 0 then some 2 else none) i = some 2 ∧ "A:\\" = driveLetter i)
    ∧ list_removable_drives (.posix
        ⟨fun _ => false, fun _ => .permissionError, fun _ => false⟩
        (.error "KeyRaise")) = .error "KeyRaise"
    ∧ (["/media/u1"] : List String).Nodup
    ∧ (⟨fun p => p == "/media",
        fun p => if p == "/media" then .ok ["u1"] else .permissionError,
        fun p => p == "/media/u1"⟩ : PosixFsView).ismount "/media/u1" = true := by
  have h := claim5_amended 1 (fun j => if j = 0 then some 2 else none)
    ⟨fun p => p == "/media",
     fun p => if p == "/media" then .ok ["u1"] else .permissionError,
     fun p => p == "/media/u1"⟩ (.ok "/root")
  have herr := (claim5_amended 1 (fun j => if j = 0 then some 2 else none)
    ⟨fun _ => false, fun _ => .permissionError, fun _ => false⟩
    (.error "KeyRaise")).2.2.1 "KeyRaise" rfl
  have hok := h.2.2.2 ["/media/u1"] rfl
  exact ⟨h.2.1 ["A:\\"] rfl "A:\\" (by decide), herr, hok.1,
    hok.2 "/media/u1" (by decide)⟩

theorem startsWith_slash_of_prefix (a b : String)
    (h : (a ++ "/").data <+: (b ++ "/").data) :
    a = b ∨ startsWithStr (a ++ "/") b = true := by
  by_cases hcmp : (a ++ "/").data.length ≤ b.data.length
  · right
    apply (startsWithStr_iff _ _).mpr
    have hpb : b.data <+: (b ++ "/").data := ⟨("/" : String).data, by rw [str_data_append]⟩
    rcases List.prefix_of_prefix_length_le h hpb hcmp with ⟨t, ht⟩
    exact ⟨t, ht.symm⟩
  · left
    have hlen : (a ++ "/").data.length ≤ (b ++ "/").data.length := h.length_le
    have h1 : (a ++ "/").data.length = a.data.length + 1 := by
      rw [str_data_append]
      simp
    have h2 : (b ++ "/").data.length = b.data.length + 1 := by
      rw [str_data_append]
      simp
    have hlen2 : (a ++ "/").data.length = (b ++ "/").data.length := by omega
    have heq := h.eq_of_length hlen2
    rw [str_data_append, str_data_append] at heq
    have hd : a.data = b.data := List.append_cancel_right heq
    cases a
    cases b
    exact congrArg String.mk hd

/-- Two strict-subtree memberships of the same path force the two roots to
coincide or one to lie under the other. -/
theorem startsWithStr_both (a b q : String)
    (ha : startsWithStr (a ++ "/") q = true) (hb : startsWithStr (b ++ "/") q = true) :
    a = b ∨ startsWithStr (a ++ "/") b = true ∨ startsWithStr (b ++ "/") a = true := by
  rcases (startsWithStr_iff _ _).mp ha with ⟨ra, hra⟩
  rcases (startsWithStr_iff _ _).mp hb with ⟨rb, hrb⟩
  have hpa : (a ++ "/").data <+: q.data := ⟨ra, hra.symm⟩
  have hpb : (b ++ "/").data <+: q.data := ⟨rb, hrb.symm⟩
  rcases List.prefix_or_prefix_of_prefix hpa hpb with hab | hba
  · rcases startsWith_slash_of_prefix a b hab with heq | hsw
    · exact Or.inl heq
    · exact Or.inr (Or.inl hsw)
  · rcases startsWith_slash_of_prefix b a hba with heq | hsw
    · exact Or.inl heq.symm
    · exact Or.inr (Or.inr hsw)

/-- C6, counterexample: the claim fails when the chosen destination lies
inside a source path.  Copying the directory source `/usb` to the
destination `/usb/save` creates the file `/usb/save/usb/f.txt`, a file
under the source path `/usb` that did not exist before the batch, so a
file under a source path is created. -/
theorem claim6_counterexample :
    startsWithStr ("/usb" ++ "/") "/usb/save/usb/f.txt" = true
    ∧ ((⟨[], []⟩ : Fs).isFile "/usb/save/usb/f.txt" = false)
    ∧ (copy_paths (fun q => if q = "/usb" then Src.dirE [Entry.file "f.txt" "x"]
        else Src.missing) "/usb/save" ["/usb"] ⟨[], []⟩).1.isFile "/usb/save/usb/f.txt"
        = true := by
  have hct : copy_tree [Entry.file "f.txt" "x"]
      (pjoin "/usb/save" (dirTargetName "/usb")) ⟨[], []⟩ =
      (⟨[("/usb/save/usb/f.txt", "x")], ["/usb/save/usb"]⟩, none) := by
    rw [copy_tree, walkEntries_file_eq]
    rfl
  refine ⟨by decide, by decide, ?_⟩
  rw [copy_paths_dir_ok _ "/usb/save" "/usb" [] _ _ _ rfl hct, copy_paths_nil]
  decide

/-- C6, amended: a batch copy only creates or modifies entries under the
chosen destination.  Every file the batch writes lies strictly under the
destination, every directory it creates is the destination itself or lies
strictly under it, no existing file is ever deleted, and every path
outside the destination subtree keeps its content and its directory
status.  Consequently no file or directory under a source path is
created, changed, or deleted whenever that source subtree is disjoint
from the destination subtree (the source neither equal to the destination
nor either lying under the other); a destination chosen inside a source
path is the exception the counterexample exhibits.  The claim holds
whether or not the batch raises. -/
theorem claim6_amended (world : String → Src) (dst : String) (ps : List String) (fs : Fs) :
    (∀ q, (copy_paths world dst ps fs).1.isFile q = true →
      fs.isFile q = true ∨ startsWithStr (dst ++ "/") q = true)
    ∧ (∀ q, q ∈ (copy_paths world dst ps fs).1.dirs →
      q ∈ fs.dirs ∨ q = dst ∨ startsWithStr (dst ++ "/") q = true)
    ∧ (∀ q, fs.isFile q = true → (copy_paths world dst ps fs).1.isFile q = true)
    ∧ (∀ q, q ≠ dst → startsWithStr (dst ++ "/") q = false →
      ((copy_paths world dst ps fs).1.lookup q = fs.lookup q
        ∧ (q ∈ (copy_paths world dst ps fs).1.dirs ↔ q ∈ fs.dirs)))
    ∧ (∀ s q, s ≠ dst → startsWithStr (s ++ "/") dst = false →
      startsWithStr (dst ++ "/") s = false →
      (q = s ∨ startsWithStr (s ++ "/") q = true) →
      ((copy_paths world dst ps fs).1.lookup q = fs.lookup q
        ∧ (q ∈ (copy_paths world dst ps fs).1.dirs ↔ q ∈ fs.dirs))) := by
  obtain ⟨h1, h2, h3, _, h5⟩ := copy_paths_frame world dst ps fs
  refine ⟨h1, h2, h3, h5, ?_⟩
  intro s q hne hsd hds hq
  apply h5
  · rcases hq with rfl | hsw
    · exact hne
    · intro hcon
      rw [hcon] at hsw
      rw [hsw] at hsd
      simp at hsd
  · apply bool_eq_false_of_not
    intro hdq
    rcases hq with rfl | hsw
    · rw [hdq] at hds
      simp at hds
    · rcases startsWithStr_both s dst q hsw hdq with heq | hsw2 | hsw3
      · exact hne heq
      · rw [hsw2] at hsd
        simp at hsd
      · rw [hsw3] at hds
        simp at hds

/-- Witness for the amended C6: with the source volume mounted outside the
destination subtree, the batch leaves the source file and the source
directory untouched. -/
theorem claim6_amended_witness :
    (copy_paths (fun q => if q = "/src/f.txt" then Src.fileE "s" else Src.missing)
      "/dest" ["/src/f.txt"] ⟨[("/src/f.txt", "s")], ["/src"]⟩).1.lookup "/src/f.txt"
      = some "s"
    ∧ ("/src" ∈ (copy_paths (fun q => if q = "/src/f.txt" then Src.fileE "s" else Src.missing)
      "/dest" ["/src/f.txt"] ⟨[("/src/f.txt", "s")], ["/src"]⟩).1.dirs ↔
      "/src" ∈ (⟨[("/src/f.txt", "s")], ["/src"]⟩ : Fs).dirs) := by
  have h := claim6_amended (fun q => if q = "/src/f.txt" then Src.fileE "s" else Src.missing)
    "/dest" ["/src/f.txt"] ⟨[("/src/f.txt", "s")], ["/src"]⟩
  have hf := h.2.2.2.2 "/src" "/src/f.txt" (by decide) (by decide) (by decide)
    (Or.inr (by decide))
  have hd := h.2.2.2.2 "/src" "/src" (by decide) (by decide) (by decide) (Or.inl rfl)
  exact ⟨hf.1.trans (by decide), hd.2⟩

/-- C7: any failure during a batch copy is caught at the top level of the
worker: whatever state the loop reached, the thread function returns
normally with the error status text and a single error notification, and
on success it returns the success status and a single info notification.
The worker is a total function of its inputs, so the exception never
propagates out of it. -/
theorem claim7 (world : String → Src) (paths : List String) (dst : String) (fs : Fs) :
    (∀ fs1, copy_paths world dst paths fs = (fs1, none) →
      copy_paths_thread world paths dst fs =
        (fs1, "Copie terminee", .info "Termine" "Copie terminee."))
    ∧ (∀ fs1 e, copy_paths world dst paths fs = (fs1, some e) →
      copy_paths_thread world paths dst fs =
        (fs1, "Erreur lors de la copie",
          .err "Erreur" ("Une erreur est survenue pendant la copie: " ++ e))) := by
  constructor
  · intro fs1 h
    rw [copy_paths_thread, h]
  · intro fs1 e h
    rw [copy_paths_thread, h]

/-- Witness for C7: a batch whose destination path is an existing file
makes `os.makedirs` raise; the worker reports the single error
notification and the error status instead of propagating. -/
theorem claim7_witness :
    copy_paths_thread (fun q => if q = "/u/a.txt" then Src.fileE "n" else Src.missing)
      ["/u/a.txt"] "/dest" ⟨[("/dest", "clash")], []⟩ =
      (⟨[("/dest", "clash")], []⟩, "Erreur lors de la copie",
        .err "Erreur" ("Une erreur est survenue pendant la copie: " ++ "FileExistsError")) := by
  exact (claim7 (fun q => if q = "/u/a.txt" then Src.fileE "n" else Src.missing)
    ["/u/a.txt"] "/dest" ⟨[("/dest", "clash")], []⟩).2
    ⟨[("/dest", "clash")], []⟩ "FileExistsError" rfl

/-- C8: for a copy-all action on a volume whose trimmed base name B is
non-empty, the orchestrator passes `destination/B_copy` as the destination
root, the copier appends B again, and every file the batch writes lands
under `destination/B_copy/B/` — a doubly nested target, not
`destination/B`. -/
theorem claim8 (world : String → Src) (destination src : String) (cs : List Entry) (fs0 : Fs)
    (hw : world src = .dirE cs)
    (hB : basenameStr (rstripSlashes src) ≠ "") :
    copy_all_dst destination src =
      pjoin destination (basenameStr (rstripSlashes src) ++ "_copy")
    ∧ (∀ q, (copy_paths world (copy_all_dst destination src) [src] fs0).1.isFile q = true →
      fs0.isFile q = true ∨
        startsWithStr
          (pjoin (pjoin destination (basenameStr (rstripSlashes src) ++ "_copy"))
            (basenameStr (rstripSlashes src)) ++ "/") q = true) := by
  have hdst : copy_all_dst destination src =
      pjoin destination (basenameStr (rstripSlashes src) ++ "_copy") := by
    show pjoin destination ((if basenameStr (rstripSlashes src) = "" then "usb_copy"
      else basenameStr (rstripSlashes src)) ++ "_copy") = _
    rw [if_neg hB]
  have hname : dirTargetName src = basenameStr (rstripSlashes src) := by
    unfold dirTargetName
    rw [if_neg hB]
  refine ⟨hdst, ?_⟩
  intro q hq
  rcases hct : copy_tree cs (pjoin (copy_all_dst destination src) (dirTargetName src)) fs0
    with ⟨fs1, r⟩
  have hq1 : fs1.isFile q = true := by
    rcases r with _ | msg
    · rw [copy_paths_dir_ok world (copy_all_dst destination src) src [] fs0 fs1 cs hw hct,
        copy_paths_nil] at hq
      exact hq
    · rw [copy_paths_dir_err world (copy_all_dst destination src) src [] fs0 fs1 cs msg hw
        hct] at hq
      exact hq
  have h2 := copy_tree_isFile_sub cs
    (pjoin (copy_all_dst destination src) (dirTargetName src)) fs0 q (by rw [hct]; exact hq1)
  rw [hdst, hname] at h2
  exact h2

/-- Witness for C8: copying the volume `/media/usb` (base name `usb`) with
destination `/dest` writes the file under `/dest/usb_copy/usb/`. -/
theorem claim8_witness :
    copy_all_dst "/dest" "/media/usb" = pjoin "/dest" ("usb" ++ "_copy")
    ∧ startsWithStr (pjoin (pjoin "/dest" ("usb" ++ "_copy")) "usb" ++ "/")
        "/dest/usb_copy/usb/f.txt" = true := by
  have h := claim8 (fun q => if q = "/media/usb" then Src.dirE [Entry.file "f.txt" "x"]
      else Src.missing) "/dest" "/media/usb" [Entry.file "f.txt" "x"] ⟨[], []⟩
    rfl (by decide)
  have hct : copy_tree [Entry.file "f.txt" "x"]
      (pjoin (copy_all_dst "/dest" "/media/usb") (dirTargetName "/media/usb")) ⟨[], []⟩ =
      (⟨[("/dest/usb_copy/usb/f.txt", "x")], ["/dest/usb_copy/usb"]⟩, none) := by
    rw [copy_tree, walkEntries_file_eq]
    rfl
  have hrun : copy_paths (fun q => if q = "/media/usb" then Src.dirE [Entry.file "f.txt" "x"]
      else Src.missing) (copy_all_dst "/dest" "/media/usb") ["/media/usb"] ⟨[], []⟩ =
      (⟨[("/dest/usb_copy/usb/f.txt", "x")], ["/dest/usb_copy/usb"]⟩, none) := by
    rw [copy_paths_dir_ok _ _ _ [] _ _ _ rfl hct, copy_paths_nil]
  refine ⟨h.1, ?_⟩
  have h3 := h.2 "/dest/usb_copy/usb/f.txt" (by rw [hrun]; decide)
  rcases h3 with habs | hsw
  · exact absurd habs (by decide)
  · exact hsw

/-- C9: a batch source path that does not exist takes the plain-file
branch, which still creates the destination directory (with exist-ok
semantics) before the failing file copy; the failure is caught and the
batch continues with the next source, so the destination gains a
directory even though no file was copied for that source. -/
theorem claim9 (world : String → Src) (dst p : String) (ps : List String) (fs : Fs)
    (hw : world p = .missing) (hfl : fs.isFile dst = false) :
    copy_paths world dst (p :: ps) fs = copy_paths world dst ps (fs.addDir dst)
    ∧ (fs.addDir dst).files = fs.files
    ∧ dst ∈ (fs.addDir dst).dirs :=
  ⟨copy_paths_missing_ok world dst p ps fs hw hfl, rfl,
    (mem_dirs_addDir fs dst dst).mpr (Or.inl rfl)⟩

/-- Witness for C9: a missing source leaves the files untouched, creates
the destination directory, and the batch moves on to the next source. -/
theorem claim9_witness :
    copy_paths (fun _ => Src.missing) "/dest" ["/gone", "/gone2"] ⟨[], []⟩ =
      copy_paths (fun _ => Src.missing) "/dest" ["/gone2"] ((⟨[], []⟩ : Fs).addDir "/dest")
    ∧ ((⟨[], []⟩ : Fs).addDir "/dest").files = ([] : List (String × String))
    ∧ "/dest" ∈ ((⟨[], []⟩ : Fs).addDir "/dest").dirs := by
  have h := claim9 (fun _ => Src.missing) "/dest" "/gone" ["/gone2"] ⟨[], []⟩ rfl rfl
  exact ⟨h.1, h.2.1, h.2.2⟩

/-- C10: when copying a directory source, every subdirectory reached by
the walk — including empty ones — has a corresponding directory created at
its relative position under the destination root, so the destination
replicates the directory skeleton of the source even where no file is
copied. -/
theorem claim10 (cs : List Entry) (dst : String) (fs : Fs)
    (hok : (copy_tree cs dst fs).2 = none) :
    dst ∈ (copy_tree cs dst fs).1.dirs
    ∧ ∀ r ∈ dirRels "." cs,
        (if r = "." then dst else pjoin dst r) ∈ (copy_tree cs dst fs).1.dirs := by
  have hmade := runEntries_dirs_made dst (walkEntries cs) fs hok
  constructor
  · have hmem : dst ∈ dirTargets dst (walkEntries cs) := by
      have h0 : targetOf dst ⟨".", dirNamesOf cs, filesOf cs⟩ = dst := by
        simp [targetOf]
      rw [dirTargets, walkEntries, List.map_cons, h0]
      exact List.mem_cons_self _ _
    exact hmade dst hmem
  · intro r hr
    rw [← walkForest_rels "." cs] at hr
    rcases List.mem_map.mp hr with ⟨e, he, herel⟩
    have hmem : targetOf dst e ∈ dirTargets dst (walkEntries cs) := by
      apply List.mem_map_of_mem
      rw [walkEntries]
      exact List.mem_cons_of_mem _ he
    have hmade2 := hmade _ hmem
    have heq : targetOf dst e = if r = "." then dst else pjoin dst r := by
      rw [targetOf, herel]
    rw [← heq]
    exact hmade2

/-- Witness for C10: copying a directory whose only content is an empty
subdirectory `sub` creates `/d/sub` in the destination. -/
theorem claim10_witness :
    pjoin "/d" "sub" ∈
      (copy_tree [Entry.dir "sub" []] "/d" ⟨[], []⟩).1.dirs := by
  have h := claim10 [Entry.dir "sub" []] "/d" ⟨[], []⟩
    (by rw [copy_tree, walkEntries_emptyDir_eq]; rfl)
  have h2 := h.2 "sub" (by rw [dirRels_emptyDir_eq]; exact List.mem_singleton.mpr rfl)
  exact h2

end UsbRec
